import Mathlib

/-!
Verification of the result-processing and citation pipeline of the
deepseek research agent (backend/src/agent/tavily_processor.py and the
citation-finalization section of backend/src/agent/graph.py).

Python strings are modelled as lists of characters (`PyStr`), Python
values crossing the API boundary as `PyVal`, and Python-level exceptions
(`AttributeError` from calling `.strip()` on a non-string, `TypeError`
from iterating a non-iterable) as an `Except PyErr` result.
`json.loads` is modelled as an arbitrary parser parameter
(`String -> Option PyVal` up to representation), `none` standing for
`json.JSONDecodeError`; every theorem quantifies over the parser.
-/

namespace Tavily

/-- Python strings, modelled as lists of characters (`len`, slicing and
iteration in the source are all by code point). -/
abbrev PyStr := List Char

/-- Python values that cross the search-provider boundary. -/
inductive PyVal where
  | pstr (s : PyStr)
  | pint (n : Int)
  | pnone
  | pbool (b : Bool)
  | plist (xs : List PyVal)
  | pdict (fields : List (String × PyVal))

/-- Python exceptions observed by the pipeline. -/
inductive PyErr where
  | attributeError
  | typeError
deriving Repr, DecidableEq

/-- First binding of a key in a dict (Python dict keys are unique, so
first-match lookup is faithful). -/
def dictFind (d : List (String × PyVal)) (k : String) : Option PyVal :=
  match d.find? (fun kv => kv.1 == k) with
  | some kv => some kv.2
  | none => none

/-- `d.get(k, dflt)`. -/
def dictGet (d : List (String × PyVal)) (k : String) (dflt : PyVal) : PyVal :=
  match dictFind d k with
  | some v => v
  | none => dflt

/-- Characters treated as whitespace by Python's `str.strip()` and `\s`
(ASCII fragment: space, tab, newline, carriage return, vertical tab,
form feed). -/
def pyIsSpace (c : Char) : Bool :=
  c.isWhitespace || c = '\x0b' || c = '\x0c'

/-- Python `str.strip()`: drop leading and trailing whitespace. -/
def pyStrip (s : PyStr) : PyStr :=
  ((s.dropWhile pyIsSpace).reverse.dropWhile pyIsSpace).reverse

/-- `.strip()` as a method call: raises `AttributeError` on non-strings
(this is exactly what happens in `process_search_results_for_ai` when a
result field is present but not a string). -/
def pyStripMethod : PyVal → Except PyErr PyStr
  | .pstr s => .ok (pyStrip s)
  | _ => .error .attributeError

mutual

/-- `re.sub(r'\s+', ' ', s)`: collapse every maximal whitespace run to
a single space.  `collapseWS` scans outside a run; `collapseWSRun`
scans the remainder of a run whose single `' '` has already been
emitted (equivalently, it drops the remaining whitespace of the run and
continues). -/
def collapseWS : PyStr → PyStr
  | [] => []
  | c :: rest =>
    if pyIsSpace c then ' ' :: collapseWSRun rest else c :: collapseWS rest

def collapseWSRun : PyStr → PyStr
  | [] => []
  | c :: rest =>
    if pyIsSpace c then collapseWSRun rest else c :: collapseWS rest

end

/-- Word characters for `\b` (Python `\w`, ASCII fragment).  Written
through `Char.toLower` (which fixes every non-uppercase character), so
that case-insensitively equal characters are word characters together. -/
def isWordChar (c : Char) : Bool :=
  (c.toLower).isAlphanum || c.toLower = '_'

/-- Case-insensitive character comparison (`re.IGNORECASE`). -/
def lcEq (a b : Char) : Bool :=
  a.toLower == b.toLower

/-- Does `kw` match case-insensitively at the head of `s`? -/
def startsWithCI : PyStr → PyStr → Bool
  | [], _ => true
  | _ :: _, [] => false
  | k :: ks, c :: cs => lcEq k c && startsWithCI ks cs

/-- One noise pattern of `validate_and_clean_content`: an alternation of
literal keywords, optionally wrapped in `\b ... \b`.  The regex suffix
`.*?(?=\.|$)` (shortest stretch up to the next period or the end) is
handled by the substitution function itself. -/
structure NoisePat where
  kws : List PyStr
  bound : Bool

/-- Trailing `\b` after a keyword (all keywords end in a word character,
so the boundary holds iff the next position is the end or non-word). -/
def afterBoundOK : PyStr → Bool
  | [] => true
  | c :: _ => !(isWordChar c)

/-- Try to match one keyword alternative at the head of `s`; `prevW`
says whether the character before `s` is a word character (for the
leading `\b`; keywords begin with word characters, so the boundary holds
iff `prevW` is false).  Returns the matched length. -/
def tryKw (bound : Bool) (prevW : Bool) (kw : PyStr) (s : PyStr) : Option Nat :=
  match kw with
  | [] => none
  | _ :: _ =>
    if bound && prevW then none
    else if startsWithCI kw s then
      if bound && !afterBoundOK (s.drop kw.length) then none
      else some kw.length
    else none

/-- Try the pattern's alternatives in order (regex alternation
preference) at the head of `s`. -/
def tryTrigger (p : NoisePat) (prevW : Bool) (s : PyStr) : Option Nat :=
  p.kws.findSome? (fun kw => tryKw p.bound prevW kw s)

/-- Word status of the character just before the current scan position:
the last character of `l` if any, otherwise the inherited status. -/
def lastWordStatus (dflt : Bool) (l : PyStr) : Bool :=
  match l.getLast? with
  | some c => isWordChar c
  | none => dflt

/-- `re.sub(pattern, '', s)` for one noise pattern: scan left to right;
at a match, delete the keyword plus the shortest stretch up to (not
including) the next `'.'` (the `.*?(?=\.|$)` suffix) and resume there.
`\b` conditions are evaluated on the original string, which the scan
reproduces by tracking the word status of the previous character; at a
resumption point the previous character is the last deleted one.
Structural recursion on a fuel argument; every keyword is non-empty, so
any fuel of at least the string length is enough and the scan never
reaches the fuel-exhausted base case (`subNoise_fuel` below). -/
def subNoiseAux (p : NoisePat) : Nat → Bool → PyStr → PyStr
  | _, _, [] => []
  | 0, _, s => s
  | fuel + 1, prevW, c :: rest =>
    match tryTrigger p prevW (c :: rest) with
    | some k =>
      let t := (c :: rest).drop k
      let dropped := t.takeWhile (fun x => x != '.')
      subNoiseAux p fuel (lastWordStatus true dropped) (t.dropWhile (fun x => x != '.'))
    | none => c :: subNoiseAux p fuel (isWordChar c) rest

/-- One full `re.sub(pattern, '', s)` pass. -/
def subNoise (p : NoisePat) (s : PyStr) : PyStr :=
  subNoiseAux p s.length false s

/-- The five noise patterns of `validate_and_clean_content`, in source
order. -/
def pat1 : NoisePat := ⟨["Cookie".data, "Privacy Policy".data, "Terms of Service".data], true⟩

def pat2 : NoisePat := ⟨["Advertisement".data, "Ad".data], true⟩

def pat3 : NoisePat := ⟨["JavaScript".data], false⟩

def pat4 : NoisePat := ⟨["Enable JavaScript".data], false⟩

def pat5 : NoisePat := ⟨["This website uses cookies".data], false⟩

def noisePats : List NoisePat := [pat1, pat2, pat3, pat4, pat5]

/-- The noise-removal passes, applied in sequence.  Each `re.sub` scan
starts at the beginning of the (already rewritten) string, where no
previous character exists, hence `prevW = false`. -/
def cleanNoise (s : PyStr) : PyStr :=
  noisePats.foldl (fun acc p => subNoise p acc) s

/-- `validate_and_clean_content` on a string that is already known to be
a string: collapse whitespace on the stripped input, remove noise,
strip again. -/
def sanitizeStr (s : PyStr) : PyStr :=
  pyStrip (cleanNoise (collapseWS (pyStrip s)))

/-- `validate_and_clean_content(content)`: total over all Python values
(`if not content or not isinstance(content, str): return ""`). -/
def validate_and_clean_content (v : PyVal) : PyStr :=
  match v with
  | .pstr s => if s = [] then [] else sanitizeStr s
  | _ => []

/-- Does the noise pattern match anywhere in `s` scanned standalone
(`re.search`)?  Since the regex suffix `.*?(?=\.|$)` can always be
satisfied (consume up to the next period or the end), a pattern matches
iff its keyword alternation, with its boundary conditions, matches at
some position; `prevW` is the word status of the character before `s`
(`false` at the start of a string). -/
def hasTrig (p : NoisePat) : Bool → PyStr → Bool
  | _, [] => false
  | prevW, c :: rest => (tryTrigger p prevW (c :: rest)).isSome || hasTrig p (isWordChar c) rest

/-- Does any of the five configured noise patterns match in `s`? -/
def hasNoise (s : PyStr) : Bool :=
  noisePats.any (fun p => hasTrig p false s)

/-- Well-formedness of a noise pattern, shared by all five configured
patterns: every keyword alternative has at least two characters, no
keyword character is case-insensitively a period, and every keyword
ends in a word character. -/
def patOK (p : NoisePat) : Bool :=
  p.kws.all (fun kw =>
    2 ≤ kw.length &&
    kw.all (fun ch => !(ch.toLower == '.')) &&
    (match kw.getLast? with
     | some ch => isWordChar ch
     | none => false))

/-- `out` is `[]` or starts with a period: the shape of the scan
remainder at every deletion point (the non-greedy suffix stops just
before a period or at the end). -/
def dotOrNil (out : PyStr) : Prop :=
  out = [] ∨ ∃ t, out = '.' :: t

/-- `out` arises from `s` by deleting contiguous spans, where at each
deletion point the remaining output is empty or starts with a period —
the shape of one `re.sub` noise pass. -/
inductive SpanRem : PyStr → PyStr → Prop where
  | nil : SpanRem [] []
  | keep (c : Char) (s out : PyStr) : SpanRem s out → SpanRem (c :: s) (c :: out)
  | del (d : Char) (s out : PyStr) : SpanRem s out → dotOrNil out → SpanRem (d :: s) out

/-- The shape of whitespace-collapsed text: every whitespace character
is a plain space and no two adjacent characters are both whitespace. -/
def collapsedOK (s : PyStr) : Prop :=
  (∀ c ∈ s, pyIsSpace c = true → c = ' ') ∧
    s.Chain' (fun a b => ¬(pyIsSpace a = true ∧ pyIsSpace b = true))

/-- A raw string wrapped as a single synthetic result
(`{'title': 'Search Result', 'url': '', 'content': search_response}`). -/
def wrapRawString (s : PyStr) : PyVal :=
  .plist [.pdict [("title", .pstr "Search Result".data),
                  ("url", .pstr []),
                  ("content", .pstr s)]]

/-- `extract_tavily_results(search_response)`.  The `results` field of a
dict (or of a successfully decoded JSON string) is used as-is, whatever
its runtime type; hence the result type is `PyVal`, not a list. -/
def extract_tavily_results (jsonParse : PyStr → Option PyVal) (resp : PyVal) : PyVal :=
  match resp with
  | .pdict d =>
    match dictFind d "results" with
    | some v => v
    | none =>
      match dictFind d "answer" with
      | some a =>
        .plist [.pdict [("title", .pstr "Direct Answer".data),
                        ("url", .pstr []),
                        ("content", a)]]
      | none => .plist []
  | .plist xs => .plist xs
  | .pstr s =>
    match jsonParse s with
    | some (.pdict d) =>
      match dictFind d "results" with
      | some v => v
      | none => wrapRawString s
    | some _ => wrapRawString s
    | none => wrapRawString s
  | _ => .plist []

/-- `for ... in enumerate(x)`: lists iterate over their elements,
strings over their characters, dicts over their keys; anything else
raises `TypeError`. -/
def pyIter (v : PyVal) : Except PyErr (List PyVal) :=
  match v with
  | .plist xs => .ok xs
  | .pstr s => .ok (s.map (fun c => .pstr [c]))
  | .pdict d => .ok (d.map (fun kv => .pstr kv.1.data))
  | _ => .error .typeError

/-- One source-metadata record as appended to `sources_gathered` by
`process_search_results_for_ai` (all six keys are always present). -/
structure SourceMeta where
  title : PyStr
  url : PyStr
  content : PyStr
  short_url : PyStr
  value : PyStr
  label : PyStr
deriving Repr, DecidableEq

/-- `f"[{n}]"`. -/
def mkMarker (n : Nat) : PyStr :=
  '[' :: (Nat.repr n).data ++ [']']

/-- The default title `f'Search Result {valid_result_count + 1}'`. -/
def defaultTitle (n : Nat) : PyStr :=
  "Search Result ".data ++ (Nat.repr n).data

/-- The formatted source block built for accepted result number `n`. -/
def formattedBlock (n : Nat) (title url content : PyStr) : PyStr :=
  "=== Source ".data ++ (Nat.repr n).data ++ " ===\nTitle: ".data ++ title ++
    "\nURL: ".data ++ url ++ "\nContent: ".data ++ content ++
    "\n==================".data

/-- The truncation applied to over-long sanitized content:
`clean_content[:max_content_length] + "..."`. -/
def truncateContent (maxL : Nat) (clean : PyStr) : PyStr :=
  if maxL < clean.length then clean.take maxL ++ "...".data else clean

/-- The body of the `for i, result in enumerate(raw_results)` loop of
`process_search_results_for_ai`; `cnt` is `valid_result_count`.  The
`break` once `valid_result_count >= max_results` sits at the top of each
iteration; non-dict results are skipped; field extraction calls
`.strip()` on whatever value is present, which raises `AttributeError`
on a present but non-string field. -/
def processLoop (maxR maxL minL : Nat) (cnt : Nat) :
    List PyVal → Except PyErr (List PyStr × List SourceMeta)
  | [] => .ok ([], [])
  | r :: rs =>
    if maxR ≤ cnt then .ok ([], [])
    else
      match r with
      | .pdict d => do
        let title ← pyStripMethod (dictGet d "title" (.pstr (defaultTitle (cnt + 1))))
        let url ← pyStripMethod (dictGet d "url" (.pstr []))
        let rawContent ← pyStripMethod (dictGet d "content" (.pstr []))
        let clean := validate_and_clean_content (.pstr rawContent)
        if clean.length < minL then
          processLoop maxR maxL minL cnt rs
        else
          let content := truncateContent maxL clean
          let rest ← processLoop maxR maxL minL (cnt + 1) rs
          .ok (formattedBlock (cnt + 1) title url content :: rest.1,
               { title := title, url := url, content := content,
                 short_url := mkMarker (cnt + 1), value := url,
                 label := title } :: rest.2)
      | _ => processLoop maxR maxL minL cnt rs

/-- `process_search_results_for_ai(search_response, max_results,
max_content_length, min_content_length)`. -/
def process_search_results_for_ai (jsonParse : PyStr → Option PyVal) (resp : PyVal)
    (maxR maxL minL : Nat) : Except PyErr (List PyStr × List SourceMeta) := do
  let xs ← pyIter (extract_tavily_results jsonParse resp)
  processLoop maxR maxL minL 0 xs

/-- Case-insensitive substring occurrence (`re.search` of a literal). -/
def containsCI (needle hay : PyStr) : Bool :=
  hay.tails.any (fun t => startsWithCI needle t)

/-- Case-sensitive substring test (Python `in`). -/
def containsSub (needle hay : PyStr) : Bool :=
  hay.tails.any (fun t => needle.isPrefixOf t)

/-- `re.search(r"API.*?(error|failed)", s, re.I)`: an occurrence of
`API` followed, with no intervening newline (`.` does not match `\n`),
by `error` or `failed`. -/
def apiErrorHit : PyStr → Bool
  | [] => false
  | c :: rest =>
    (startsWithCI "API".data (c :: rest) &&
      (let line := ((c :: rest).drop 3).takeWhile (fun x => x != '\n')
       containsCI "error".data line || containsCI "failed".data line))
    || apiErrorHit rest

/-- `re.search(r"^(Search.*?failed)", s, re.I)`: `Search` at the start,
then `failed` later on the same line. -/
def searchFailedHit (s : PyStr) : Bool :=
  startsWithCI "Search".data s &&
    containsCI "failed".data ((s.drop 6).takeWhile (fun x => x != '\n'))

/-- `validate_ai_response(response_content, min_length)`. -/
def validate_ai_response (v : PyVal) (minLen : Nat) : Bool :=
  match v with
  | .pstr s =>
    if s = [] then false
    else
      let clean := pyStrip s
      if clean.length < minLen then false
      else if startsWithCI "Error".data clean || startsWithCI "Sorry".data clean
           || startsWithCI "Cannot".data clean || startsWithCI "Unable".data clean then false
      else if apiErrorHit clean then false
      else if searchFailedHit clean then false
      else true
  | _ => false

/-- Python `s.replace(old, new)` for a non-empty `old = a :: old'`:
replace every non-overlapping occurrence, left to right.  Structural
recursion on fuel; each step consumes at least one character, so fuel
equal to the string length is enough. -/
def replaceAllNE (a : Char) (old' new : PyStr) : Nat → PyStr → PyStr
  | _, [] => []
  | 0, s => s
  | fuel + 1, c :: rest =>
    if (a :: old').isPrefixOf (c :: rest) then
      new ++ replaceAllNE a old' new fuel ((c :: rest).drop (a :: old').length)
    else
      c :: replaceAllNE a old' new fuel rest

/-- Python `s.replace(old, new)`.  An empty `old` inserts `new` before
every character and at the end, exactly as in Python. -/
def replaceAll (old new s : PyStr) : PyStr :=
  match old with
  | [] => new ++ List.flatten (s.map (fun c => c :: new))
  | a :: old' => replaceAllNE a old' new s.length s

/-- `s.lower().find(needle)` companion: first index of an occurrence. -/
def findSub (needle : PyStr) : PyStr → Option Nat
  | [] => if needle.isPrefixOf ([] : PyStr) then some 0 else none
  | c :: rest =>
    if needle.isPrefixOf (c :: rest) then some 0
    else (findSub needle rest).map (· + 1)

/-- The three-element `url_patterns` loop of
`process_citations_in_response`: `https://domain`, `http://domain`,
then the bare domain, each replaced if present. -/
def urlPatternLoop (domain marker content : PyStr) : PyStr :=
  (["https://".data ++ domain, "http://".data ++ domain, domain]).foldl
    (fun acc pat => if containsSub pat acc then replaceAll pat marker acc else acc)
    content

/-- The `try:` block of `process_citations_in_response`: its first
statement `domain = url.split('/')[2]` raises `IndexError` (caught,
skipping the whole block) when the split has no index 2; the guarded
bare-domain replacement requires `len(domain) > 10`, but the
`url_patterns` loop that follows is unconditional. -/
def domainBlock (url marker content : PyStr) : PyStr :=
  match (url.splitOn '/').drop 2 with
  | [] => content
  | domain :: _ =>
    let c1 := if containsSub domain content && 10 < domain.length then
                replaceAll domain marker content
              else content
    urlPatternLoop domain marker c1

/-- The url-replacement part of one iteration of the source loop in
`process_citations_in_response` (guarded by `if url and short_url:`). -/
def urlStep (content : PyStr) (s : SourceMeta) : PyStr :=
  if s.url ≠ [] ∧ s.short_url ≠ [] then
    domainBlock s.url s.short_url (replaceAll s.url s.short_url content)
  else content

/-- The title-citation part of one iteration of the source loop:
insert the marker after a matched title occurrence when no marker is
already present within 25 characters on either side. -/
def titleStep (content : PyStr) (s : SourceMeta) : PyStr :=
  if s.title ≠ [] ∧ 20 < s.title.length then
    let titleLower := s.title.map Char.toLower
    let contentLower := content.map Char.toLower
    if containsSub titleLower contentLower then
      match findSub titleLower contentLower with
      | some pos =>
        let nearby := (content.drop (pos - 25)).take ((pos + s.title.length + 25) - (pos - 25))
        if containsSub s.short_url nearby then content
        else content.take (pos + s.title.length) ++ s.short_url ++
             content.drop (pos + s.title.length)
      | none => content
    else content
  else content

/-- One iteration of the source loop of `process_citations_in_response`. -/
def citeStep (content : PyStr) (s : SourceMeta) : PyStr :=
  titleStep (urlStep content s) s

/-- `process_citations_in_response(response_content, sources_metadata)`
for metadata records produced by `process_search_results_for_ai` (all
keys present, so every `.get` returns the stored field). -/
def process_citations_in_response (resp : PyStr) (sources : List SourceMeta) : PyStr :=
  sources.foldl citeStep resp

/-- One reference-list entry `f"{citation_num}. [{title}]({url})\n"`;
`source.get("url", source.get("value", ""))` is the stored `url` field,
which is always present on these records. -/
def refEntry (n : Nat) (s : SourceMeta) : PyStr :=
  (Nat.repr n).data ++ ". [".data ++ s.title ++ "](".data ++ s.url ++ ")\n".data

/-- The references section appended by `finalize_answer` when at least
one source was accepted: the header plus one entry per accepted source,
in display-number order (`citation_map` preserves insertion order). -/
def referencesSection (accepted : List SourceMeta) : PyStr :=
  "\n\n## References\n\n".data ++
    List.flatten (accepted.enum.map (fun p => refEntry (p.1 + 1) p.2))

/-- The citation loop of `finalize_answer` (graph.py): scan the
accumulated sources in order; when a source's `short_url` occurs in the
*current* answer text, give it the next display number, replace every
occurrence, and append it to `unique_sources`. -/
def finalizeLoop (content : PyStr) (acc : List SourceMeta) :
    List SourceMeta → PyStr × List SourceMeta
  | [] => (content, acc)
  | s :: rest =>
    if containsSub s.short_url content then
      finalizeLoop (replaceAll s.short_url (mkMarker (acc.length + 1)) content)
        (acc ++ [s]) rest
    else
      finalizeLoop content acc rest

/-- The pure citation-and-references part of `finalize_answer`: rewrite
markers to display numbers and append the references section when any
source was accepted.  Returns the final text and `unique_sources`. -/
def finalize_answer_citations (content : PyStr) (sources : List SourceMeta) :
    PyStr × List SourceMeta :=
  let r := finalizeLoop content [] sources
  if r.2 = [] then r
  else (r.1 ++ referencesSection r.2, r.2)

/-- A result element whose `title`, `url` and `content` fields, where
present, are strings; on such elements the `.strip()` calls of the
processing loop cannot raise. -/
def strOrAbsent (d : List (String × PyVal)) (k : String) : Bool :=
  match dictFind d k with
  | some (.pstr _) => true
  | some _ => false
  | none => true

def wellTypedResult (v : PyVal) : Bool :=
  match v with
  | .pdict d => strOrAbsent d "title" && strOrAbsent d "url" && strOrAbsent d "content"
  | _ => true

/-- The provenance shape of every metadata record accepted as result
number `k` of one processing call. -/
def RecOK (minL maxL k : Nat) (r : SourceMeta) : Prop :=
  r.value = r.url ∧ r.label = r.title ∧ r.short_url = mkMarker k ∧
    ∃ clean : PyStr, minL ≤ clean.length ∧ r.content = truncateContent maxL clean

/- Concrete inputs used by witness and counterexample theorems. -/

/-- A JSON parser that always fails (`json.loads` raising
`JSONDecodeError`); theorems quantify over the parser, witnesses fix
this one. -/
def jpNone : PyStr → Option PyVal := fun _ => none

def wContent8 : PyStr := "abcdefgh".data

def wRespC1 : PyVal :=
  .pdict [("results", .plist [.pdict [("content", .pstr wContent8)]])]

def wRecC1 : SourceMeta :=
  { title := "Search Result 1".data, url := [], content := "abcde...".data,
    short_url := "[1]".data, value := [], label := "Search Result 1".data }

def wBlockC1 : PyStr :=
  formattedBlock 1 "Search Result 1".data [] "abcde...".data

def wRespC2 : PyVal :=
  .pdict [("results", .plist
    [.pdict [("title", .pstr "A".data), ("content", .pstr "abcdefgh".data)],
     .pdict [("content", .pstr "x".data)],
     .pdict [("title", .pstr "B".data), ("content", .pstr "stuvwxyz".data)]])]

def wRecC2a : SourceMeta :=
  { title := "A".data, url := [], content := "abcdefgh".data,
    short_url := "[1]".data, value := [], label := "A".data }

def wRecC2b : SourceMeta :=
  { title := "B".data, url := [], content := "stuvwxyz".data,
    short_url := "[2]".data, value := [], label := "B".data }

def wBlockC2a : PyStr := formattedBlock 1 "A".data [] "abcdefgh".data

def wBlockC2b : PyStr := formattedBlock 2 "B".data [] "stuvwxyz".data

def wRecC3 : SourceMeta :=
  { title := "Search Result 1".data, url := [], content := "abcdefgh".data,
    short_url := "[1]".data, value := [], label := "Search Result 1".data }

def wBlockC3 : PyStr := formattedBlock 1 "Search Result 1".data [] "abcdefgh".data

def wRespC4 : PyVal :=
  .pdict [("results", .plist [.pdict [("title", .pnone),
    ("content", .pstr "this content is long enough".data)]])]

def wRespC5 : PyVal :=
  .pdict [("results", .plist [.pdict [("title", .pstr "  ".data),
    ("content", .pstr "abcdefgh".data)]])]

def wRecC5 : SourceMeta :=
  { title := [], url := [], content := "abcdefgh".data,
    short_url := "[1]".data, value := [], label := [] }

def wBlockC5 : PyStr := formattedBlock 1 [] [] "abcdefgh".data

/-- Reference entries numbered sequentially from `n`, one per accepted
source in order: the explicit sequential-numbering reading of the
reference list. -/
def refEntriesFrom (n : Nat) : List SourceMeta → PyStr
  | [] => []
  | s :: rest => refEntry n s ++ refEntriesFrom (n + 1) rest

def wSrcC7 : SourceMeta :=
  { title := [], url := "http://x.com/a".data, content := [],
    short_url := "[1]".data, value := "http://x.com/a".data, label := [] }

def wSrcC9 : SourceMeta :=
  { title := "Report".data, url := "http://r.com".data, content := [],
    short_url := "[1]".data, value := "http://r.com".data, label := "Report".data }

end Tavily

namespace Tavily

/-! ### Structural lemmas about the processing loop -/

theorem processLoop_break (maxR maxL minL cnt : Nat) (l : List PyVal)
    (h : maxR ≤ cnt) : processLoop maxR maxL minL cnt l = .ok ([], []) := by
  cases l with
  | nil => rfl
  | cons r rs => simp [processLoop, if_pos h]

theorem processLoop_cons_dict (maxR maxL minL cnt : Nat)
    (d : List (String × PyVal)) (rs : List PyVal) (t u c : PyStr)
    (hlt : cnt < maxR)
    (ht : pyStripMethod (dictGet d "title" (.pstr (defaultTitle (cnt + 1)))) = .ok t)
    (hu : pyStripMethod (dictGet d "url" (.pstr [])) = .ok u)
    (hc : pyStripMethod (dictGet d "content" (.pstr [])) = .ok c) :
    processLoop maxR maxL minL cnt (.pdict d :: rs) =
      if (validate_and_clean_content (.pstr c)).length < minL then
        processLoop maxR maxL minL cnt rs
      else
        Except.map (fun rest =>
          (formattedBlock (cnt + 1) t u
             (truncateContent maxL (validate_and_clean_content (.pstr c))) :: rest.1,
           { title := t, url := u,
             content := truncateContent maxL (validate_and_clean_content (.pstr c)),
             short_url := mkMarker (cnt + 1), value := u, label := t } :: rest.2))
          (processLoop maxR maxL minL (cnt + 1) rs) := by
  simp only [processLoop, Nat.not_le.mpr hlt, if_false, ht, hu, hc, bind, Except.bind]
  split
  · rfl
  · cases hrest : processLoop maxR maxL minL (cnt + 1) rs with
    | error e => simp [Except.map]
    | ok rest => simp [Except.map]

theorem processLoop_cons_nondict (maxR maxL minL cnt : Nat) (r : PyVal)
    (rs : List PyVal) (hlt : cnt < maxR)
    (hnd : ∀ d, r ≠ .pdict d) :
    processLoop maxR maxL minL cnt (r :: rs) = processLoop maxR maxL minL cnt rs := by
  cases r with
  | pdict d => exact absurd rfl (hnd d)
  | pstr s => simp [processLoop, Nat.not_le.mpr hlt]
  | pint n => simp [processLoop, Nat.not_le.mpr hlt]
  | pnone => simp [processLoop, Nat.not_le.mpr hlt]
  | pbool b => simp [processLoop, Nat.not_le.mpr hlt]
  | plist xs => simp [processLoop, Nat.not_le.mpr hlt]

/-- Every record accepted by the loop has the provenance shape `RecOK`
at its citation rank. -/
theorem processLoop_recOK (maxR maxL minL : Nat) (xs : List PyVal) :
    ∀ cnt fs recs, processLoop maxR maxL minL cnt xs = .ok (fs, recs) →
      ∀ i (hi : i < recs.length), RecOK minL maxL (cnt + i + 1) (recs.get ⟨i, hi⟩) := by
  induction xs with
  | nil =>
    intro cnt fs recs h i hi
    simp only [processLoop, Except.ok.injEq, Prod.mk.injEq] at h
    rw [← h.2] at hi
    exact absurd hi (by simp)
  | cons r rs ih =>
    intro cnt fs recs h i hi
    by_cases hbr : maxR ≤ cnt
    · rw [processLoop_break maxR maxL minL cnt _ hbr] at h
      simp only [Except.ok.injEq, Prod.mk.injEq] at h
      rw [← h.2] at hi
      exact absurd hi (by simp)
    · have hlt : cnt < maxR := Nat.not_le.mp hbr
      cases r with
      | pdict d =>
        cases ht : pyStripMethod (dictGet d "title" (.pstr (defaultTitle (cnt + 1)))) with
        | error e =>
          simp [processLoop, Nat.not_le.mpr hlt, ht, bind, Except.bind] at h
        | ok t =>
        cases hu : pyStripMethod (dictGet d "url" (.pstr [])) with
        | error e => simp [processLoop, Nat.not_le.mpr hlt, ht, hu, bind, Except.bind] at h
        | ok u =>
        cases hc : pyStripMethod (dictGet d "content" (.pstr [])) with
        | error e => simp [processLoop, Nat.not_le.mpr hlt, ht, hu, hc, bind, Except.bind] at h
        | ok c =>
        rw [processLoop_cons_dict maxR maxL minL cnt d rs t u c hlt ht hu hc] at h
        by_cases hshort : (validate_and_clean_content (.pstr c)).length < minL
        · rw [if_pos hshort] at h
          exact ih cnt fs recs h i hi
        · rw [if_neg hshort] at h
          cases hrest : processLoop maxR maxL minL (cnt + 1) rs with
          | error e => simp [hrest, Except.map] at h
          | ok rest =>
            simp only [hrest, Except.map, Except.ok.injEq, Prod.mk.injEq] at h
            obtain ⟨h1, h2⟩ := h
            subst h2
            cases i with
            | zero =>
              refine ⟨rfl, rfl, rfl, validate_and_clean_content (.pstr c), ?_, rfl⟩
              exact Nat.le_of_not_lt hshort
            | succ j =>
              have hj : j < rest.2.length := by
                simpa using hi
              have := ih (cnt + 1) rest.1 rest.2 (by simp [hrest]) j hj
              have harith : cnt + 1 + j + 1 = cnt + (j + 1) + 1 := by omega
              rw [harith] at this
              simpa using this
      | pstr s =>
        rw [processLoop_cons_nondict maxR maxL minL cnt _ rs hlt (by intro d hd; cases hd)] at h
        exact ih cnt fs recs h i hi
      | pint n =>
        rw [processLoop_cons_nondict maxR maxL minL cnt _ rs hlt (by intro d hd; cases hd)] at h
        exact ih cnt fs recs h i hi
      | pnone =>
        rw [processLoop_cons_nondict maxR maxL minL cnt _ rs hlt (by intro d hd; cases hd)] at h
        exact ih cnt fs recs h i hi
      | pbool b =>
        rw [processLoop_cons_nondict maxR maxL minL cnt _ rs hlt (by intro d hd; cases hd)] at h
        exact ih cnt fs recs h i hi
      | plist ys =>
        rw [processLoop_cons_nondict maxR maxL minL cnt _ rs hlt (by intro d hd; cases hd)] at h
        exact ih cnt fs recs h i hi

/-- The loop accepts at most `maxR - cnt` further records. -/
theorem processLoop_length_le (maxR maxL minL : Nat) (xs : List PyVal) :
    ∀ cnt fs recs, processLoop maxR maxL minL cnt xs = .ok (fs, recs) →
      cnt + recs.length ≤ maxR ∨ recs = [] := by
  induction xs with
  | nil =>
    intro cnt fs recs h
    simp only [processLoop, Except.ok.injEq, Prod.mk.injEq] at h
    exact Or.inr h.2.symm
  | cons r rs ih =>
    intro cnt fs recs h
    by_cases hbr : maxR ≤ cnt
    · rw [processLoop_break maxR maxL minL cnt _ hbr] at h
      simp only [Except.ok.injEq, Prod.mk.injEq] at h
      exact Or.inr h.2.symm
    · have hlt : cnt < maxR := Nat.not_le.mp hbr
      cases r with
      | pdict d =>
        cases ht : pyStripMethod (dictGet d "title" (.pstr (defaultTitle (cnt + 1)))) with
        | error e => simp [processLoop, Nat.not_le.mpr hlt, ht, bind, Except.bind] at h
        | ok t =>
        cases hu : pyStripMethod (dictGet d "url" (.pstr [])) with
        | error e => simp [processLoop, Nat.not_le.mpr hlt, ht, hu, bind, Except.bind] at h
        | ok u =>
        cases hc : pyStripMethod (dictGet d "content" (.pstr [])) with
        | error e => simp [processLoop, Nat.not_le.mpr hlt, ht, hu, hc, bind, Except.bind] at h
        | ok c =>
        rw [processLoop_cons_dict maxR maxL minL cnt d rs t u c hlt ht hu hc] at h
        by_cases hshort : (validate_and_clean_content (.pstr c)).length < minL
        · rw [if_pos hshort] at h
          exact ih cnt fs recs h
        · rw [if_neg hshort] at h
          cases hrest : processLoop maxR maxL minL (cnt + 1) rs with
          | error e => simp [hrest, Except.map] at h
          | ok rest =>
            simp only [hrest, Except.map, Except.ok.injEq, Prod.mk.injEq] at h
            obtain ⟨h1, h2⟩ := h
            subst h2
            rcases ih (cnt + 1) rest.1 rest.2 (by simp [hrest]) with hle | hnil
            · left
              simp only [List.length_cons]
              omega
            · left
              rw [hnil]
              simp only [List.length_cons, List.length_nil]
              omega
      | pstr s =>
        rw [processLoop_cons_nondict maxR maxL minL cnt _ rs hlt (by intro d hd; cases hd)] at h
        exact ih cnt fs recs h
      | pint n =>
        rw [processLoop_cons_nondict maxR maxL minL cnt _ rs hlt (by intro d hd; cases hd)] at h
        exact ih cnt fs recs h
      | pnone =>
        rw [processLoop_cons_nondict maxR maxL minL cnt _ rs hlt (by intro d hd; cases hd)] at h
        exact ih cnt fs recs h
      | pbool b =>
        rw [processLoop_cons_nondict maxR maxL minL cnt _ rs hlt (by intro d hd; cases hd)] at h
        exact ih cnt fs recs h
      | plist ys =>
        rw [processLoop_cons_nondict maxR maxL minL cnt _ rs hlt (by intro d hd; cases hd)] at h
        exact ih cnt fs recs h

/-- Once the loop has accepted `maxR` records in total, any further raw
results are never reached: the output over `xs ++ ys` equals the output
over `xs`, whatever `ys` contains. -/
theorem processLoop_stops (maxR maxL minL : Nat) (xs : List PyVal) :
    ∀ ys cnt fs recs, processLoop maxR maxL minL cnt xs = .ok (fs, recs) →
      cnt + recs.length = maxR →
      processLoop maxR maxL minL cnt (xs ++ ys) = .ok (fs, recs) := by
  induction xs with
  | nil =>
    intro ys cnt fs recs h hful
    simp only [processLoop, Except.ok.injEq, Prod.mk.injEq] at h
    obtain ⟨h1, h2⟩ := h
    rw [← h1, ← h2]
    rw [← h2] at hful
    simp only [List.length_nil, Nat.add_zero] at hful
    simpa using processLoop_break maxR maxL minL cnt ys (Nat.le_of_eq hful.symm)
  | cons r rs ih =>
    intro ys cnt fs recs h hful
    by_cases hbr : maxR ≤ cnt
    · rw [processLoop_break maxR maxL minL cnt _ hbr] at h
      rw [List.cons_append, processLoop_break maxR maxL minL cnt _ hbr]
      exact h
    · have hlt : cnt < maxR := Nat.not_le.mp hbr
      rw [List.cons_append]
      cases r with
      | pdict d =>
        cases ht : pyStripMethod (dictGet d "title" (.pstr (defaultTitle (cnt + 1)))) with
        | error e => simp [processLoop, Nat.not_le.mpr hlt, ht, bind, Except.bind] at h
        | ok t =>
        cases hu : pyStripMethod (dictGet d "url" (.pstr [])) with
        | error e => simp [processLoop, Nat.not_le.mpr hlt, ht, hu, bind, Except.bind] at h
        | ok u =>
        cases hc : pyStripMethod (dictGet d "content" (.pstr [])) with
        | error e => simp [processLoop, Nat.not_le.mpr hlt, ht, hu, hc, bind, Except.bind] at h
        | ok c =>
        rw [processLoop_cons_dict maxR maxL minL cnt d rs t u c hlt ht hu hc] at h
        rw [processLoop_cons_dict maxR maxL minL cnt d (rs ++ ys) t u c hlt ht hu hc]
        by_cases hshort : (validate_and_clean_content (.pstr c)).length < minL
        · rw [if_pos hshort] at h ⊢
          exact ih ys cnt fs recs h hful
        · rw [if_neg hshort] at h ⊢
          cases hrest : processLoop maxR maxL minL (cnt + 1) rs with
          | error e => simp [hrest, Except.map] at h
          | ok rest =>
            simp only [hrest, Except.map, Except.ok.injEq, Prod.mk.injEq] at h
            obtain ⟨h1, h2⟩ := h
            have hful' : cnt + 1 + rest.2.length = maxR := by
              rw [← h2] at hful
              simp only [List.length_cons] at hful
              omega
            rw [ih ys (cnt + 1) rest.1 rest.2 (by simp [hrest]) hful']
            simp [Except.map, h1, h2]
      | pstr s =>
        rw [processLoop_cons_nondict maxR maxL minL cnt _ rs hlt (by intro d hd; cases hd)] at h
        rw [processLoop_cons_nondict maxR maxL minL cnt _ (rs ++ ys) hlt (by intro d hd; cases hd)]
        exact ih ys cnt fs recs h hful
      | pint n =>
        rw [processLoop_cons_nondict maxR maxL minL cnt _ rs hlt (by intro d hd; cases hd)] at h
        rw [processLoop_cons_nondict maxR maxL minL cnt _ (rs ++ ys) hlt (by intro d hd; cases hd)]
        exact ih ys cnt fs recs h hful
      | pnone =>
        rw [processLoop_cons_nondict maxR maxL minL cnt _ rs hlt (by intro d hd; cases hd)] at h
        rw [processLoop_cons_nondict maxR maxL minL cnt _ (rs ++ ys) hlt (by intro d hd; cases hd)]
        exact ih ys cnt fs recs h hful
      | pbool b =>
        rw [processLoop_cons_nondict maxR maxL minL cnt _ rs hlt (by intro d hd; cases hd)] at h
        rw [processLoop_cons_nondict maxR maxL minL cnt _ (rs ++ ys) hlt (by intro d hd; cases hd)]
        exact ih ys cnt fs recs h hful
      | plist zs =>
        rw [processLoop_cons_nondict maxR maxL minL cnt _ rs hlt (by intro d hd; cases hd)] at h
        rw [processLoop_cons_nondict maxR maxL minL cnt _ (rs ++ ys) hlt (by intro d hd; cases hd)]
        exact ih ys cnt fs recs h hful

/-- A raw result whose sanitized content is shorter than
`min_content_length` never gives rise to a record: the loop output is
the output on the remaining results. -/
theorem processLoop_skip_short (maxR maxL minL cnt : Nat)
    (d : List (String × PyVal)) (rs : List PyVal) (t u c : PyStr)
    (ht : pyStripMethod (dictGet d "title" (.pstr (defaultTitle (cnt + 1)))) = .ok t)
    (hu : pyStripMethod (dictGet d "url" (.pstr [])) = .ok u)
    (hc : pyStripMethod (dictGet d "content" (.pstr [])) = .ok c)
    (hshort : (validate_and_clean_content (.pstr c)).length < minL) :
    processLoop maxR maxL minL cnt (.pdict d :: rs) =
      processLoop maxR maxL minL cnt rs := by
  by_cases hbr : maxR ≤ cnt
  · rw [processLoop_break maxR maxL minL cnt _ hbr,
        processLoop_break maxR maxL minL cnt _ hbr]
  · rw [processLoop_cons_dict maxR maxL minL cnt d rs t u c (Nat.not_le.mp hbr) ht hu hc,
        if_pos hshort]

theorem strip_ok_of_strOrAbsent (d : List (String × PyVal)) (k : String)
    (dflt : PyStr) (h : strOrAbsent d k = true) :
    ∃ t, pyStripMethod (dictGet d k (.pstr dflt)) = .ok t := by
  unfold strOrAbsent at h
  unfold dictGet
  cases hf : dictFind d k with
  | none => exact ⟨pyStrip dflt, rfl⟩
  | some v =>
    rw [hf] at h
    cases v with
    | pstr s => exact ⟨pyStrip s, rfl⟩
    | pint n => simp at h
    | pnone => simp at h
    | pbool b => simp at h
    | plist xs => simp at h
    | pdict d2 => simp at h

/-- On well-typed raw results the loop never raises. -/
theorem processLoop_total (maxR maxL minL : Nat) (xs : List PyVal)
    (hwt : ∀ v ∈ xs, wellTypedResult v = true) :
    ∀ cnt, ∃ out, processLoop maxR maxL minL cnt xs = .ok out := by
  induction xs with
  | nil => intro cnt; exact ⟨([], []), rfl⟩
  | cons r rs ih =>
    intro cnt
    by_cases hbr : maxR ≤ cnt
    · exact ⟨([], []), processLoop_break maxR maxL minL cnt _ hbr⟩
    · have hlt : cnt < maxR := Nat.not_le.mp hbr
      have ihr : ∀ v ∈ rs, wellTypedResult v = true := by
        intro v hv
        exact hwt v (List.mem_cons_of_mem r hv)
      cases r with
      | pdict d =>
        have hw := hwt (.pdict d) (List.mem_cons_self _ _)
        simp only [wellTypedResult, Bool.and_eq_true] at hw
        obtain ⟨⟨hw1, hw2⟩, hw3⟩ := hw
        obtain ⟨t, ht⟩ := strip_ok_of_strOrAbsent d "title" (defaultTitle (cnt + 1)) hw1
        obtain ⟨u, hu⟩ := strip_ok_of_strOrAbsent d "url" [] hw2
        obtain ⟨c, hc⟩ := strip_ok_of_strOrAbsent d "content" [] hw3
        rw [processLoop_cons_dict maxR maxL minL cnt d rs t u c hlt ht hu hc]
        by_cases hshort : (validate_and_clean_content (.pstr c)).length < minL
        · rw [if_pos hshort]
          exact ih ihr cnt
        · rw [if_neg hshort]
          obtain ⟨rest, hrest⟩ := ih ihr (cnt + 1)
          rw [hrest]
          exact ⟨_, rfl⟩
      | pstr s =>
        rw [processLoop_cons_nondict maxR maxL minL cnt _ rs hlt (by intro d hd; cases hd)]
        exact ih ihr cnt
      | pint n =>
        rw [processLoop_cons_nondict maxR maxL minL cnt _ rs hlt (by intro d hd; cases hd)]
        exact ih ihr cnt
      | pnone =>
        rw [processLoop_cons_nondict maxR maxL minL cnt _ rs hlt (by intro d hd; cases hd)]
        exact ih ihr cnt
      | pbool b =>
        rw [processLoop_cons_nondict maxR maxL minL cnt _ rs hlt (by intro d hd; cases hd)]
        exact ih ihr cnt
      | plist ys =>
        rw [processLoop_cons_nondict maxR maxL minL cnt _ rs hlt (by intro d hd; cases hd)]
        exact ih ihr cnt

theorem mem_dropWhile_of_mem (p : Char → Bool) (l : PyStr) (c : Char)
    (hc : c ∈ l) (hp : p c = false) : c ∈ l.dropWhile p := by
  induction l with
  | nil => exact absurd hc (by simp)
  | cons a t ih =>
    simp only [List.dropWhile]
    cases hpa : p a with
    | true =>
      simp only []
      rcases List.mem_cons.mp hc with rfl | hmem
      · rw [hp] at hpa; exact absurd hpa (by simp)
      · exact ih hmem
    | false =>
      simp only []
      exact hc

/-- `pyStrip` keeps every interior non-space character, so the result
of stripping a string containing one is non-empty. -/
theorem pyStrip_ne_nil (s : PyStr) (c : Char) (hc : c ∈ s)
    (hns : pyIsSpace c = false) : pyStrip s ≠ [] := by
  unfold pyStrip
  have h1 : c ∈ s.dropWhile pyIsSpace := mem_dropWhile_of_mem pyIsSpace s c hc hns
  have h2 : c ∈ (s.dropWhile pyIsSpace).reverse := List.mem_reverse.mpr h1
  have h3 : c ∈ ((s.dropWhile pyIsSpace).reverse).dropWhile pyIsSpace :=
    mem_dropWhile_of_mem pyIsSpace _ c h2 hns
  intro hnil
  rw [List.reverse_eq_nil_iff] at hnil
  rw [hnil] at h3
  exact absurd h3 (by simp)

theorem process_eq_loop (jsonParse : PyStr → Option PyVal) (resp : PyVal)
    (maxR maxL minL : Nat) (xs : List PyVal)
    (hx : pyIter (extract_tavily_results jsonParse resp) = .ok xs) :
    process_search_results_for_ai jsonParse resp maxR maxL minL =
      processLoop maxR maxL minL 0 xs := by
  simp [process_search_results_for_ai, hx, bind, Except.bind]

theorem process_ok_loop (jsonParse : PyStr → Option PyVal) (resp : PyVal)
    (maxR maxL minL : Nat) (fs : List PyStr) (recs : List SourceMeta)
    (hok : process_search_results_for_ai jsonParse resp maxR maxL minL = .ok (fs, recs)) :
    ∃ xs, pyIter (extract_tavily_results jsonParse resp) = .ok xs ∧
      processLoop maxR maxL minL 0 xs = .ok (fs, recs) := by
  cases hx : pyIter (extract_tavily_results jsonParse resp) with
  | error e =>
    rw [process_search_results_for_ai] at hok
    simp [hx, bind, Except.bind] at hok
  | ok xs =>
    refine ⟨xs, rfl, ?_⟩
    rw [← process_eq_loop jsonParse resp maxR maxL minL xs hx]
    exact hok

/-! ### Claim theorems: the source processor (C1, C2, C3, C10) -/

/-- C1: for parameters `minContentLength <= maxContentLength`, every
record returned by `process_search_results_for_ai` has content of
length at least `minContentLength` and at most `maxContentLength` up to
the three-character `"..."` truncation marker (the content either fits
the bound or is exactly the `maxContentLength`-character prefix plus
`"..."`); and a raw result whose sanitized content is shorter than
`minContentLength` never gives rise to a record at all (the loop output
is unchanged by deleting it). -/
theorem c1_content_length_bounds (jsonParse : PyStr → Option PyVal) (resp : PyVal)
    (maxR maxL minL : Nat) (hml : minL ≤ maxL) :
    (∀ fs recs, process_search_results_for_ai jsonParse resp maxR maxL minL = .ok (fs, recs) →
      ∀ r ∈ recs, minL ≤ r.content.length ∧
        (r.content.length ≤ maxL ∨
          (r.content.length = maxL + 3 ∧ r.content.drop maxL = "...".data))) ∧
    (∀ cnt (d : List (String × PyVal)) rs t u c,
      pyStripMethod (dictGet d "title" (.pstr (defaultTitle (cnt + 1)))) = .ok t →
      pyStripMethod (dictGet d "url" (.pstr [])) = .ok u →
      pyStripMethod (dictGet d "content" (.pstr [])) = .ok c →
      (validate_and_clean_content (.pstr c)).length < minL →
      processLoop maxR maxL minL cnt (.pdict d :: rs) =
        processLoop maxR maxL minL cnt rs) := by
  constructor
  · intro fs recs hok r hr
    obtain ⟨xs, hx, hloop⟩ := process_ok_loop jsonParse resp maxR maxL minL fs recs hok
    obtain ⟨i, hget⟩ := List.mem_iff_get.mp hr
    obtain ⟨-, -, -, clean, hcl, hcontent⟩ :=
      processLoop_recOK maxR maxL minL xs 0 fs recs hloop i.1 i.2
    rw [Fin.eta] at hcontent
    rw [hget] at hcontent
    rw [hcontent]
    unfold truncateContent
    by_cases hlong : maxL < clean.length
    · rw [if_pos hlong]
      have htake : (clean.take maxL).length = maxL := by
        rw [List.length_take]
        omega
      constructor
      · rw [List.length_append, htake]
        have : ("...".data).length = 3 := by decide
        omega
      · right
        constructor
        · rw [List.length_append, htake]
          have h3 : ("...".data).length = 3 := rfl
          omega
        · nth_rewrite 1 [← htake]
          exact List.drop_left _ _
    · rw [if_neg hlong]
      exact ⟨hcl, Or.inl (Nat.le_of_not_lt hlong)⟩
  · intro cnt d rs t u c ht hu hc hshort
    exact processLoop_skip_short maxR maxL minL cnt d rs t u c ht hu hc hshort

/-- Witness for C1 at a concrete provider response (content of eight
characters, bounds `minContentLength = 2`, `maxContentLength = 5`;
the accepted record is truncated to `"abcde..."`). -/
theorem c1_witness :
    2 ≤ wRecC1.content.length ∧
      (wRecC1.content.length ≤ 5 ∨
        (wRecC1.content.length = 5 + 3 ∧ wRecC1.content.drop 5 = "...".data)) :=
  (c1_content_length_bounds jpNone wRespC1 5 5 2 (by decide)).1
    [wBlockC1] [wRecC1] (by rfl) wRecC1 (by simp)

/-- C2: the citation markers of the records returned by one processing
call are exactly the dense sequence `[1]`, `[2]`, ..., `[k]`, however
many raw results were skipped. -/
theorem c2_markers_dense (jsonParse : PyStr → Option PyVal) (resp : PyVal)
    (maxR maxL minL : Nat) (fs : List PyStr) (recs : List SourceMeta)
    (hok : process_search_results_for_ai jsonParse resp maxR maxL minL = .ok (fs, recs)) :
    recs.map (fun r => r.short_url) =
      (List.range recs.length).map (fun i => mkMarker (i + 1)) := by
  obtain ⟨xs, hx, hloop⟩ := process_ok_loop jsonParse resp maxR maxL minL fs recs hok
  apply List.ext_getElem
  · simp
  · intro i h1 h2
    simp only [List.getElem_map, List.getElem_range]
    have hi : i < recs.length := by simpa using h1
    obtain ⟨-, -, hmark, -⟩ := processLoop_recOK maxR maxL minL xs 0 fs recs hloop i hi
    have : recs.get ⟨i, hi⟩ = recs[i] := rfl
    rw [this] at hmark
    rw [hmark]
    congr 1
    omega

/-- Witness for C2 at a concrete response in which a too-short raw
result sits between two accepted ones. -/
theorem c2_witness :
    [wRecC2a, wRecC2b].map (fun r => r.short_url) =
      (List.range 2).map (fun i => mkMarker (i + 1)) :=
  c2_markers_dense jpNone wRespC2 5 1500 2 [wBlockC2a, wBlockC2b]
    [wRecC2a, wRecC2b] (by rfl)

/-- C3: one processing call returns at most `maxResults` records, and
once the accepted count reaches `maxResults` the remaining raw results
are never reached at all: the loop output over `xs ++ ys` equals the
output over `xs`, whatever `ys` contains (in particular `ys` is neither
sanitized nor filtered, and may even contain results whose evaluation
would raise). -/
theorem c3_max_results_cap (maxR maxL minL : Nat) :
    (∀ (jsonParse : PyStr → Option PyVal) (resp : PyVal) fs recs,
      process_search_results_for_ai jsonParse resp maxR maxL minL = .ok (fs, recs) →
      recs.length ≤ maxR) ∧
    (∀ xs ys cnt fs recs,
      processLoop maxR maxL minL cnt xs = .ok (fs, recs) →
      cnt + recs.length = maxR →
      processLoop maxR maxL minL cnt (xs ++ ys) = .ok (fs, recs)) := by
  constructor
  · intro jsonParse resp fs recs hok
    obtain ⟨xs, hx, hloop⟩ := process_ok_loop jsonParse resp maxR maxL minL fs recs hok
    rcases processLoop_length_le maxR maxL minL xs 0 fs recs hloop with hle | hnil
    · omega
    · rw [hnil]
      simp
  · intro xs ys cnt fs recs h hful
    exact processLoop_stops maxR maxL minL xs ys cnt fs recs h hful

/-- Witness for C3: with `maxResults = 1` the cap holds on a concrete
response, and appending a result that would raise `AttributeError`
(a `None`-valued title) after the cap is reached leaves the loop output
untouched. -/
theorem c3_witness :
    ([wRecC3].length ≤ 1) ∧
      processLoop 1 1500 2 0
        ([.pdict [("content", .pstr wContent8)]] ++ [.pdict [("title", .pnone)]]) =
        .ok ([wBlockC3], [wRecC3]) :=
  ⟨(c3_max_results_cap 1 1500 2).1 jpNone wRespC1 [wBlockC3] [wRecC3] (by rfl),
   (c3_max_results_cap 1 1500 2).2 [.pdict [("content", .pstr wContent8)]]
     [.pdict [("title", .pnone)]] 0 [wBlockC3] [wRecC3] (by rfl) (by rfl)⟩

/-- C10: every metadata record returned by one processing call has
`value` equal to `url` and `label` equal to `title` (so the `value`
field consulted as a url fallback can never supply a different
identifier than the url itself). -/
theorem c10_value_label_mirror (jsonParse : PyStr → Option PyVal) (resp : PyVal)
    (maxR maxL minL : Nat) (fs : List PyStr) (recs : List SourceMeta)
    (hok : process_search_results_for_ai jsonParse resp maxR maxL minL = .ok (fs, recs)) :
    ∀ r ∈ recs, r.value = r.url ∧ r.label = r.title := by
  obtain ⟨xs, hx, hloop⟩ := process_ok_loop jsonParse resp maxR maxL minL fs recs hok
  intro r hr
  obtain ⟨i, hget⟩ := List.mem_iff_get.mp hr
  obtain ⟨hv, hl, -, -⟩ := processLoop_recOK maxR maxL minL xs 0 fs recs hloop i.1 i.2
  rw [Fin.eta, hget] at hv hl
  exact ⟨hv, hl⟩

/-- Witness for C10 at a concrete response. -/
theorem c10_witness : wRecC1.value = wRecC1.url ∧ wRecC1.label = wRecC1.title :=
  c10_value_label_mirror jpNone wRespC1 5 5 2 [wBlockC1] [wRecC1] (by rfl)
    wRecC1 (by simp)

/-! ### Claim theorems: totality (C4) and title defaulting (C5) -/

/-- Counterexample to C4 as stated: a result element whose `title`
field is present but `None` makes `process_search_results_for_ai`
raise `AttributeError` (from `None.strip()`), so the function is not
total over mistyped fields. -/
theorem c4_counterexample :
    process_search_results_for_ai jpNone wRespC4 5 1500 20 = .error .attributeError :=
  rfl

/-- C4 as amended: `validate_and_clean_content`,
`extract_tavily_results` and `validate_ai_response` are total by
construction (their embeddings return plain values for every `PyVal`),
and `process_search_results_for_ai` never raises provided the extracted
results are iterable and every dict element carries only
absent-or-string `title`/`url`/`content` fields; a present non-string
field raises `AttributeError`. -/
theorem c4_total_on_well_typed (jsonParse : PyStr → Option PyVal) (resp : PyVal)
    (maxR maxL minL : Nat) (xs : List PyVal)
    (hiter : pyIter (extract_tavily_results jsonParse resp) = .ok xs)
    (hwt : ∀ v ∈ xs, wellTypedResult v = true) :
    (process_search_results_for_ai jsonParse resp maxR maxL minL).isOk = true := by
  rw [process_eq_loop jsonParse resp maxR maxL minL xs hiter]
  obtain ⟨out, hout⟩ := processLoop_total maxR maxL minL xs hwt 0
  rw [hout]
  rfl

/-- Witness for the amended C4 at a concrete response (whose only
result is skipped as too short, without raising). -/
theorem c4_witness :
    (process_search_results_for_ai jpNone wRespC1 5 1500 20).isOk = true :=
  c4_total_on_well_typed jpNone wRespC1 5 1500 20
    [.pdict [("content", .pstr wContent8)]] (by rfl) (by decide)

/-- Counterexample to C5 as stated: a raw result that supplies a
whitespace-only title produces a record whose title is the empty
string — the `"Search Result N"` placeholder is used only when the
`title` key is absent, not when the supplied title is empty. -/
theorem c5_counterexample :
    process_search_results_for_ai jpNone wRespC5 5 1500 2 =
      .ok ([wBlockC5], [wRecC5]) ∧ wRecC5.title = [] :=
  ⟨rfl, rfl⟩

/-- C5 as amended: when the accepted raw result has no `title` key at
all, the record's title is the stripped positional placeholder
`"Search Result N"` (`N` the accepted rank), which is non-empty; a
supplied title is used as-is after stripping, so a supplied empty or
whitespace-only title does yield a record with an empty title. -/
theorem c5_default_title_on_missing_key (maxR maxL minL cnt : Nat)
    (d : List (String × PyVal)) (rs : List PyVal) (u c : PyStr)
    (fs : List PyStr) (recs : List SourceMeta)
    (hlt : cnt < maxR)
    (hnt : dictFind d "title" = none)
    (hu : pyStripMethod (dictGet d "url" (.pstr [])) = .ok u)
    (hc : pyStripMethod (dictGet d "content" (.pstr [])) = .ok c)
    (hlen : ¬(validate_and_clean_content (.pstr c)).length < minL)
    (hok : processLoop maxR maxL minL cnt (.pdict d :: rs) = .ok (fs, recs)) :
    recs.head?.map SourceMeta.title = some (pyStrip (defaultTitle (cnt + 1))) ∧
      pyStrip (defaultTitle (cnt + 1)) ≠ [] := by
  have ht : pyStripMethod (dictGet d "title" (.pstr (defaultTitle (cnt + 1)))) =
      .ok (pyStrip (defaultTitle (cnt + 1))) := by
    unfold dictGet
    rw [hnt]
    rfl
  rw [processLoop_cons_dict maxR maxL minL cnt d rs _ u c hlt ht hu hc, if_neg hlen] at hok
  constructor
  · cases hrest : processLoop maxR maxL minL (cnt + 1) rs with
    | error e => rw [hrest] at hok; exact absurd hok (by simp [Except.map])
    | ok rest =>
      rw [hrest] at hok
      simp only [Except.map, Except.ok.injEq, Prod.mk.injEq] at hok
      rw [← hok.2]
      rfl
  · apply pyStrip_ne_nil (defaultTitle (cnt + 1)) 'S'
    · unfold defaultTitle
      apply List.mem_append_left
      decide
    · decide

/-- Witness for the amended C5 at a concrete accepted result with no
title key. -/
theorem c5_witness :
    ([wRecC3] : List SourceMeta).head?.map SourceMeta.title =
        some (pyStrip (defaultTitle 1)) ∧
      pyStrip (defaultTitle 1) ≠ [] :=
  c5_default_title_on_missing_key 1 1500 2 0 [("content", .pstr wContent8)] [] [] _
    [wBlockC3] [wRecC3] (by decide) (by rfl) (by rfl) (by rfl) (by decide) (by rfl)

/-! ### Claim theorems: citation rewriting (C7) and finalization (C8, C9) -/

/-- Counterexample to C7 as stated: for the source url
`http://x.com/a` the domain `x.com` has only 5 characters, yet the bare
domain occurrence in the text is still replaced by the marker, so the
claim that no domain-based replacement happens for domains of at most
10 characters is false. -/
theorem c7_counterexample :
    process_citations_in_response "visit x.com now".data [wSrcC7] =
        "visit [1] now".data ∧
      "visit [1] now".data ≠ "visit x.com now".data :=
  ⟨rfl, by decide⟩

/-- C7 as amended: the `len(domain) > 10` test gates only the
preliminary bare-domain replacement; the `url_patterns` loop that
follows replaces `https://domain`, `http://domain` and the bare domain
unconditionally.  For a domain of at most 10 characters one source
iteration therefore equals: full-url replacement, then the
unconditional three-pattern loop (and then the title step), with no
length-gated step at all. -/
theorem c7_short_domain_still_replaced (content : PyStr) (s : SourceMeta)
    (domain : PyStr) (ds : List PyStr)
    (hurl : s.url ≠ []) (hsu : s.short_url ≠ [])
    (hd : (s.url.splitOn '/').drop 2 = domain :: ds)
    (hlen : domain.length ≤ 10) :
    citeStep content s =
      titleStep (urlPatternLoop domain s.short_url
        (replaceAll s.url s.short_url content)) s := by
  unfold citeStep urlStep domainBlock
  rw [if_pos ⟨hurl, hsu⟩, hd]
  simp only []
  rw [if_neg (by
    intro hcon
    simp only [Bool.and_eq_true, decide_eq_true_eq] at hcon
    omega)]

/-- Witness for the amended C7 at the concrete short-domain source. -/
theorem c7_witness :
    citeStep "visit x.com now".data wSrcC7 =
      titleStep (urlPatternLoop "x.com".data "[1]".data
        (replaceAll "http://x.com/a".data "[1]".data "visit x.com now".data)) wSrcC7 :=
  c7_short_domain_still_replaced "visit x.com now".data wSrcC7 "x.com".data
    ["a".data] (by decide) (by decide) (by rfl) (by decide)

theorem finalizeLoop_acc_sublist (sources : List SourceMeta) :
    ∀ content acc, (finalizeLoop content acc sources).2.Sublist (acc ++ sources) := by
  induction sources with
  | nil =>
    intro content acc
    simp [finalizeLoop]
  | cons s rest ih =>
    intro content acc
    simp only [finalizeLoop]
    by_cases hc : containsSub s.short_url content = true
    · rw [if_pos hc]
      have h := ih (replaceAll s.short_url (mkMarker (acc.length + 1)) content) (acc ++ [s])
      have heq : (acc ++ [s]) ++ rest = acc ++ s :: rest := by simp
      rw [heq] at h
      exact h
    · rw [if_neg hc]
      have h := ih content acc
      apply h.trans
      apply List.Sublist.append_left
      exact List.sublist_cons_self s rest

theorem referencesSection_eq_seq (acc : List SourceMeta) :
    referencesSection acc = "\n\n## References\n\n".data ++ refEntriesFrom 1 acc := by
  unfold referencesSection
  congr 1
  have h : ∀ (l : List SourceMeta) (n : Nat),
      List.flatten ((l.enumFrom n).map (fun p => refEntry (p.1 + 1) p.2)) =
        refEntriesFrom (n + 1) l := by
    intro l
    induction l with
    | nil => intro n; rfl
    | cons s rest ih =>
      intro n
      simp only [List.enumFrom, List.map_cons, List.flatten_cons, refEntriesFrom]
      rw [ih (n + 1)]
  have h0 := h acc 0
  rw [← h0]
  rfl

/-- C8: finalization scans the accumulated sources in order; the
returned accepted list is a subsequence of the source list (so display
numbers 1..M follow source-list order, not first-appearance-in-text
order); the accepted list and the rewritten body are exactly those of
the marker-replacement scan; and when the accepted list is non-empty
the final text is the rewritten body followed by the literal
`"\n\n## References\n\n"` header and one entry
`"{displayNumber}. [{title}]({url})"` per accepted source, numbered
sequentially from 1 in display order. -/
theorem c8_finalize_structure (content : PyStr) (sources : List SourceMeta) :
    (finalize_answer_citations content sources).2.Sublist sources ∧
    (finalize_answer_citations content sources).2 =
      (finalizeLoop content [] sources).2 ∧
    (finalize_answer_citations content sources).1 =
      (finalizeLoop content [] sources).1 ++
        (if (finalizeLoop content [] sources).2 = [] then []
         else "\n\n## References\n\n".data ++
           refEntriesFrom 1 (finalizeLoop content [] sources).2) := by
  have hsub : (finalizeLoop content [] sources).2.Sublist sources := by
    have h := finalizeLoop_acc_sublist sources content []
    simpa using h
  unfold finalize_answer_citations
  by_cases hnil : (finalizeLoop content [] sources).2 = []
  · rw [if_pos hnil]
    refine ⟨hsub, rfl, ?_⟩
    rw [if_pos hnil]
    simp
  · rw [if_neg hnil]
    refine ⟨hsub, rfl, ?_⟩
    rw [if_neg hnil]
    rw [referencesSection_eq_seq]

/-- C9: when no accumulated source's citation marker occurs in the
answer text, finalization returns the text unchanged and an empty
accepted-source list. -/
theorem c9_no_marker_no_change (content : PyStr) (sources : List SourceMeta)
    (h : ∀ s ∈ sources, containsSub s.short_url content = false) :
    finalize_answer_citations content sources = (content, []) := by
  have hloop : ∀ (l : List SourceMeta), (∀ s ∈ l, containsSub s.short_url content = false) →
      ∀ acc, finalizeLoop content acc l = (content, acc) := by
    intro l
    induction l with
    | nil => intro _ acc; rfl
    | cons s rest ih =>
      intro hl acc
      simp only [finalizeLoop]
      rw [if_neg (by rw [hl s (List.mem_cons_self _ _)]; simp)]
      exact ih (fun x hx => hl x (List.mem_cons_of_mem s hx)) acc
  unfold finalize_answer_citations
  rw [hloop sources h []]
  rfl

/-- Witness for C9 at a concrete text containing no marker. -/
theorem c9_witness :
    finalize_answer_citations "no markers here".data [wSrcC9] =
      ("no markers here".data, []) :=
  c9_no_marker_no_change "no markers here".data [wSrcC9] (by decide)

/-! ### The sanitizer noise scan (C6): basic keyword and trigger facts -/

theorem length_dropWhile_le (p : Char → Bool) (l : PyStr) :
    (l.dropWhile p).length ≤ l.length := by
  induction l with
  | nil => simp [List.dropWhile]
  | cons c t ih =>
    simp only [List.dropWhile]
    split
    · simp only [List.length_cons]; omega
    · simp

theorem tryKw_pos (bound prevW : Bool) (kw s : PyStr) (k : Nat)
    (h : tryKw bound prevW kw s = some k) : 1 ≤ k := by
  match kw with
  | [] => simp [tryKw] at h
  | a :: kw' =>
    simp only [tryKw] at h
    split at h
    · exact absurd h (by simp)
    · split at h
      · split at h
        · exact absurd h (by simp)
        · simp only [Option.some.injEq] at h
          simp [← h, List.length_cons]
      · exact absurd h (by simp)

theorem tryTrigger_pos (p : NoisePat) (prevW : Bool) (s : PyStr) (k : Nat)
    (h : tryTrigger p prevW s = some k) : 1 ≤ k := by
  obtain ⟨kw, _, hkw⟩ := List.exists_of_findSome?_eq_some h
  exact tryKw_pos p.bound prevW kw s k hkw

theorem tryKw_some_elim (bound prevW : Bool) (kw s : PyStr) (k : Nat)
    (h : tryKw bound prevW kw s = some k) :
    k = kw.length ∧ kw ≠ [] ∧ (bound = true → prevW = false) ∧
      startsWithCI kw s = true ∧
      (bound = true → afterBoundOK (s.drop kw.length) = true) := by
  match kw with
  | [] => simp [tryKw] at h
  | a :: kw' =>
    simp only [tryKw] at h
    split at h
    · exact absurd h (by simp)
    · split at h
      · split at h
        · exact absurd h (by simp)
        · simp only [Option.some.injEq] at h
          rename_i hb hsw hab
          simp only [Bool.and_eq_true, Bool.not_eq_true] at hb hab
          refine ⟨h.symm, by simp, ?_, hsw, ?_⟩
          · intro hbt
            rcases Bool.eq_false_or_eq_true prevW with ht | hf
            · exact absurd ⟨hbt, ht⟩ hb
            · exact hf
          · intro hbt
            rcases Bool.eq_false_or_eq_true (afterBoundOK (s.drop (a :: kw').length)) with ht | hf
            · exact ht
            · exact absurd ⟨hbt, by simpa using hf⟩ hab
      · exact absurd h (by simp)

theorem tryKw_intro (bound prevW : Bool) (kw s : PyStr)
    (hne : kw ≠ [])
    (hb : bound = true → prevW = false)
    (hsw : startsWithCI kw s = true)
    (hab : bound = true → afterBoundOK (s.drop kw.length) = true) :
    tryKw bound prevW kw s = some kw.length := by
  match kw with
  | [] => exact absurd rfl hne
  | a :: kw' =>
    simp only [tryKw]
    rw [if_neg, if_pos hsw, if_neg]
    · intro hcon
      simp only [Bool.and_eq_true, Bool.not_eq_true] at hcon
      rw [hab hcon.1] at hcon
      exact absurd hcon.2 (by simp)
    · intro hcon
      simp only [Bool.and_eq_true] at hcon
      rw [hb hcon.1] at hcon
      exact absurd hcon.2 (by simp)

theorem tryTrigger_none_iff (p : NoisePat) (prevW : Bool) (s : PyStr) :
    tryTrigger p prevW s = none ↔ ∀ kw ∈ p.kws, tryKw p.bound prevW kw s = none := by
  unfold tryTrigger
  exact List.findSome?_eq_none_iff

/-- Facts packaged by `patOK` about one keyword of a pattern. -/
theorem patOK_kw (p : NoisePat) (hp : patOK p = true) (kw : PyStr) (hkw : kw ∈ p.kws) :
    2 ≤ kw.length ∧ (∀ ch ∈ kw, (ch.toLower == '.') = false) ∧
      (∃ ch, kw.getLast? = some ch ∧ isWordChar ch = true) := by
  unfold patOK at hp
  rw [List.all_eq_true] at hp
  have h := hp kw hkw
  simp only [Bool.and_eq_true] at h
  obtain ⟨⟨h1, h2⟩, h3⟩ := h
  refine ⟨by simpa using h1, ?_, ?_⟩
  · intro ch hch
    rw [List.all_eq_true] at h2
    have := h2 ch hch
    simpa using this
  · cases hlast : kw.getLast? with
    | none => rw [hlast] at h3; exact absurd h3 (by simp)
    | some ch => rw [hlast] at h3; exact ⟨ch, rfl, h3⟩

theorem noisePats_patOK : ∀ p ∈ noisePats, patOK p = true := by decide

/-- A keyword never matches at a position holding a period. -/
theorem startsWithCI_dot_false (kw : PyStr) (t : PyStr)
    (hkw : ∀ ch ∈ kw, (ch.toLower == '.') = false) (hne : kw ≠ []) :
    startsWithCI kw ('.' :: t) = false := by
  match kw with
  | [] => exact absurd rfl hne
  | a :: kw' =>
    simp only [startsWithCI, Bool.and_eq_false_iff]
    left
    have := hkw a (by simp)
    unfold lcEq
    simpa using this

theorem tryTrigger_dot_none (p : NoisePat) (hp : patOK p = true) (prevW : Bool)
    (t : PyStr) : tryTrigger p prevW ('.' :: t) = none := by
  rw [tryTrigger_none_iff]
  intro kw hkw
  obtain ⟨h2, hdot, -⟩ := patOK_kw p hp kw hkw
  have hne : kw ≠ [] := by
    intro hnil
    rw [hnil] at h2
    simp at h2
  match kw, hne with
  | a :: kw', _ =>
    simp only [tryKw]
    split
    · rfl
    · rw [startsWithCI_dot_false (a :: kw') t hdot (by simp)]
      simp

/-- `subNoiseAux` does not depend on the fuel, given fuel at least the
string length. -/
theorem subNoiseAux_fuel (p : NoisePat) :
    ∀ f g pw (s : PyStr), s.length ≤ f → s.length ≤ g →
      subNoiseAux p f pw s = subNoiseAux p g pw s := by
  intro f
  induction f with
  | zero =>
    intro g pw s hf hg
    cases s with
    | nil => cases g <;> rfl
    | cons c rest => simp at hf
  | succ f ih =>
    intro g pw s hf hg
    cases s with
    | nil => cases g <;> rfl
    | cons c rest =>
      cases g with
      | zero => simp at hg
      | succ g =>
        simp only [subNoiseAux]
        cases htrig : tryTrigger p pw (c :: rest) with
        | none =>
          simp only []
          congr 1
          exact ih g (isWordChar c) rest (by simpa using hf) (by simpa using hg)
        | some k =>
          simp only []
          have hk : 1 ≤ k := tryTrigger_pos p pw (c :: rest) k htrig
          have hlen : (((c :: rest).drop k).dropWhile (fun x => x != '.')).length ≤ rest.length := by
            have h1 := length_dropWhile_le (fun x => x != '.') ((c :: rest).drop k)
            have h2 : ((c :: rest).drop k).length = (c :: rest).length - k := by
              simp [List.length_drop]
            simp only [List.length_cons] at h2
            omega
          exact ih g _ _ (by simp only [List.length_cons] at hf; omega)
            (by simp only [List.length_cons] at hg; omega)

/-! ### Case-insensitive matching kit -/

theorem startsWithCI_length (kw : PyStr) :
    ∀ s, startsWithCI kw s = true → kw.length ≤ s.length := by
  induction kw with
  | nil => intro s _; simp
  | cons k ks ih =>
    intro s h
    cases s with
    | nil => simp [startsWithCI] at h
    | cons c cs =>
      simp only [startsWithCI, Bool.and_eq_true] at h
      have := ih cs h.2
      simp only [List.length_cons]
      omega

theorem startsWithCI_congr_take (kw : PyStr) :
    ∀ (n : Nat) (x y : PyStr), kw.length ≤ n → x.take n = y.take n →
      startsWithCI kw x = startsWithCI kw y := by
  induction kw with
  | nil => intro n x y _ _; rfl
  | cons k ks ih =>
    intro n x y hn hxy
    cases n with
    | zero => simp at hn
    | succ m =>
      cases x with
      | nil =>
        cases y with
        | nil => rfl
        | cons b ys => simp [List.take] at hxy
      | cons a xs =>
        cases y with
        | nil => simp [List.take] at hxy
        | cons b ys =>
          simp only [List.take, List.cons.injEq] at hxy
          obtain ⟨hab, htail⟩ := hxy
          simp only [startsWithCI, hab]
          congr 1
          exact ih m xs ys (by simp only [List.length_cons] at hn; omega) htail

theorem startsWithCI_iff (kw : PyStr) :
    ∀ s, startsWithCI kw s = true ↔
      ∃ u v, s = u ++ v ∧ kw.map Char.toLower = u.map Char.toLower := by
  induction kw with
  | nil =>
    intro s
    simp only [startsWithCI, List.map_nil]
    constructor
    · intro _
      exact ⟨[], s, rfl, rfl⟩
    · intro _; trivial
  | cons k ks ih =>
    intro s
    cases s with
    | nil =>
      simp only [startsWithCI]
      constructor
      · intro h; exact absurd h (by simp)
      · rintro ⟨u, v, huv, hmap⟩
        have : u = [] := by
          cases u with
          | nil => rfl
          | cons a us => simp at huv
        rw [this] at hmap
        simp at hmap
    | cons c cs =>
      simp only [startsWithCI, Bool.and_eq_true]
      constructor
      · rintro ⟨hk, hks⟩
        obtain ⟨u, v, huv, hmap⟩ := (ih cs).mp hks
        refine ⟨c :: u, v, by simp [huv], ?_⟩
        simp only [List.map_cons, hmap, List.cons.injEq]
        constructor
        · unfold lcEq at hk
          simpa using hk
        · trivial
      · rintro ⟨u, v, huv, hmap⟩
        cases u with
        | nil => simp at hmap
        | cons a us =>
          simp only [List.cons_append, List.cons.injEq] at huv
          obtain ⟨rfl, hcs⟩ := huv
          simp only [List.map_cons, List.cons.injEq] at hmap
          constructor
          · unfold lcEq
            simp [hmap.1]
          · exact (ih cs).mpr ⟨us, v, hcs, hmap.2⟩

theorem startsWithCI_drop (kw : PyStr) :
    ∀ (s : PyStr) (n : Nat), startsWithCI kw s = true →
      startsWithCI (kw.drop n) (s.drop n) = true := by
  induction kw with
  | nil => intro s n _; simp [startsWithCI, List.drop_nil]
  | cons k ks ih =>
    intro s n h
    cases s with
    | nil => simp [startsWithCI] at h
    | cons c cs =>
      simp only [startsWithCI, Bool.and_eq_true] at h
      cases n with
      | zero => simp only [List.drop_zero, startsWithCI, Bool.and_eq_true]; exact h
      | succ m => simpa using ih cs m h.2

theorem afterBoundOK_congr (x y : PyStr) (h : x.head? = y.head?) :
    afterBoundOK x = afterBoundOK y := by
  cases x with
  | nil =>
    cases y with
    | nil => rfl
    | cons b ys => simp at h
  | cons a xs =>
    cases y with
    | nil => simp at h
    | cons b ys =>
      simp only [List.head?_cons, Option.some.injEq] at h
      simp [afterBoundOK, h]

theorem head?_drop_eq_of_take_eq (x y : PyStr) (j m : Nat) (hm : m < j)
    (h : x.take j = y.take j) : (x.drop m).head? = (y.drop m).head? := by
  rw [List.head?_drop, List.head?_drop]
  have hx : (x.take j)[m]? = x[m]? := by rw [List.getElem?_take, if_pos hm]
  have hy : (y.take j)[m]? = y[m]? := by rw [List.getElem?_take, if_pos hm]
  rw [← hx, ← hy, h]

theorem lastWordStatus_cons (d : Bool) (c : Char) (l : PyStr) :
    lastWordStatus d (c :: l) = lastWordStatus (isWordChar c) l := by
  cases l with
  | nil => rfl
  | cons x xs =>
    unfold lastWordStatus
    rw [List.getLast?_cons_cons]
    cases hl : (x :: xs).getLast? with
    | none => exact absurd hl (by simp)
    | some ch => rfl

theorem isWordChar_congr_toLower (a b : Char) (h : a.toLower = b.toLower) :
    isWordChar a = isWordChar b := by
  unfold isWordChar
  rw [h]

/-! ### Structure of one noise pass (C6) -/

theorem dropWhile_dotOrNil (l : PyStr) :
    dotOrNil (l.dropWhile (fun x => x != '.')) := by
  induction l with
  | nil => exact Or.inl rfl
  | cons c rest ih =>
    simp only [List.dropWhile]
    cases hc : (c != '.') with
    | true => simpa using ih
    | false =>
      simp only []
      right
      have : c = '.' := by
        simpa using hc
      exact ⟨rest, by rw [this]⟩

theorem subNoiseAux_dotOrNil (p : NoisePat) (hp : patOK p = true)
    (fuel : Nat) (pw : Bool) (s : PyStr) (hs : dotOrNil s) (hf : s.length ≤ fuel) :
    dotOrNil (subNoiseAux p fuel pw s) := by
  rcases hs with rfl | ⟨t, rfl⟩
  · left
    cases fuel <;> rfl
  · cases fuel with
    | zero => simp at hf
    | succ f =>
      simp only [subNoiseAux]
      rw [tryTrigger_dot_none p hp pw t]
      exact Or.inr ⟨_, rfl⟩

theorem subNoiseAux_A2 (p : NoisePat) (hp : patOK p = true) :
    ∀ fuel pw (s : PyStr), s.length ≤ fuel →
      subNoiseAux p fuel pw s = s ∨
      ∃ j k, j ≤ (subNoiseAux p fuel pw s).length ∧
        (subNoiseAux p fuel pw s).take j = s.take j ∧
        dotOrNil ((subNoiseAux p fuel pw s).drop j) ∧
        tryTrigger p (lastWordStatus pw (s.take j)) (s.drop j) = some k := by
  intro fuel
  induction fuel with
  | zero =>
    intro pw s hf
    left
    cases s with
    | nil => rfl
    | cons c rest => simp at hf
  | succ f ih =>
    intro pw s hf
    cases s with
    | nil => left; rfl
    | cons c rest =>
      simp only [subNoiseAux]
      cases htrig : tryTrigger p pw (c :: rest) with
      | none =>
        simp only []
        have hrest : rest.length ≤ f := by
          simp only [List.length_cons] at hf
          omega
        rcases ih (isWordChar c) rest hrest with heq | ⟨j, k, hjle, htake, hdot, htrigj⟩
        · left
          rw [heq]
        · right
          refine ⟨j + 1, k, ?_, ?_, ?_, ?_⟩
          · simp only [List.length_cons]
            omega
          · simp only [List.take_succ_cons, htake]
          · simpa using hdot
          · rw [List.take_succ_cons, lastWordStatus_cons]
            simpa using htrigj
      | some k =>
        simp only []
        right
        refine ⟨0, k, by simp, by simp, ?_, by simpa using htrig⟩
        simp only [List.drop_zero]
        apply subNoiseAux_dotOrNil p hp
        · exact dropWhile_dotOrNil _
        · have hk : 1 ≤ k := tryTrigger_pos p pw (c :: rest) k htrig
          have h1 := length_dropWhile_le (fun x => x != '.') ((c :: rest).drop k)
          have h2 : ((c :: rest).drop k).length = (c :: rest).length - k := by
            simp [List.length_drop]
          simp only [List.length_cons] at h2 hf
          omega

theorem getLast?_map_toLower (l : PyStr) :
    (l.map Char.toLower).getLast? = l.getLast?.map Char.toLower := by
  induction l with
  | nil => rfl
  | cons c rest ih =>
    cases rest with
    | nil => rfl
    | cons x xs =>
      simp only [List.map_cons, List.getLast?_cons_cons] at ih ⊢
      exact ih

theorem tryKw_none_bound_elim (kw s : PyStr) (hne : kw ≠ [])
    (h : tryKw true false kw s = none) (hsw : startsWithCI kw s = true) :
    afterBoundOK (s.drop kw.length) = false := by
  match kw, hne with
  | a :: kw', _ =>
    simp only [tryKw] at h
    rw [if_neg (by simp)] at h
    rw [if_pos hsw] at h
    by_contra hcon
    rw [Bool.not_eq_false] at hcon
    have hX : afterBoundOK (s.drop (a :: kw').length) = true := by
      simpa using hcon
    rw [hX] at h
    simp at h

theorem afterBoundOK_false_elim (x : PyStr) (h : afterBoundOK x = false) :
    ∃ w t, x = w :: t ∧ isWordChar w = true := by
  cases x with
  | nil => simp [afterBoundOK] at h
  | cons w t =>
    refine ⟨w, t, rfl, ?_⟩
    simp only [afterBoundOK] at h
    simpa using h

theorem hasTrig_dot_irrel (p : NoisePat) (hp : patOK p = true) (out : PyStr)
    (hdot : dotOrNil out) (pw pw' : Bool) :
    hasTrig p pw out = hasTrig p pw' out := by
  rcases hdot with rfl | ⟨t, rfl⟩
  · rfl
  · simp only [hasTrig]
    rw [tryTrigger_dot_none p hp pw, tryTrigger_dot_none p hp pw']

/-- The crux of the self-cleanness argument: if the original scan found
no match at a position, the rewritten remainder (which agrees with the
original up to the next deletion point, where a period or the end
follows) admits no match at that position either. -/
theorem no_new_trigger (p : NoisePat) (hp : patOK p = true)
    (pw : Bool) (c : Char) (rest out' : PyStr)
    (htrig0 : tryTrigger p pw (c :: rest) = none)
    (hA2 : out' = rest ∨ ∃ j k, j ≤ out'.length ∧ out'.take j = rest.take j ∧
      dotOrNil (out'.drop j) ∧
      tryTrigger p (lastWordStatus (isWordChar c) (rest.take j)) (rest.drop j) = some k) :
    tryTrigger p pw (c :: out') = none := by
  rcases hA2 with rfl | ⟨j, k, hjle, htake, hdot, htrigj⟩
  · exact htrig0
  cases htr : tryTrigger p pw (c :: out') with
  | none => rfl
  | some k2 =>
    exfalso
    obtain ⟨kw, hkwmem, hkw⟩ := List.exists_of_findSome?_eq_some htr
    obtain ⟨-, hkne, hbpw, hsw, hab⟩ := tryKw_some_elim p.bound pw kw (c :: out') k2 hkw
    have h0 : tryKw p.bound pw kw (c :: rest) = none :=
      (tryTrigger_none_iff p pw (c :: rest)).mp htrig0 kw hkwmem
    obtain ⟨hL2, hdotfree, kl, hkl, hklw⟩ := patOK_kw p hp kw hkwmem
    have htakeeq : (c :: out').take (j + 1) = (c :: rest).take (j + 1) := by
      simp only [List.take_succ_cons, htake]
    have htakelen : (rest.take j).length = j := by
      rw [← htake, List.length_take]
      omega
    rcases Nat.lt_trichotomy kw.length (j + 1) with hcase | hcase | hcase
    · -- kw.length ≤ j: the match lies in the agreed region
      have hswr : startsWithCI kw (c :: rest) = true := by
        rw [← startsWithCI_congr_take kw (j + 1) (c :: out') (c :: rest) (by omega) htakeeq]
        exact hsw
      have habr : p.bound = true → afterBoundOK ((c :: rest).drop kw.length) = true := by
        intro hb
        have hheads : ((c :: out').drop kw.length).head? = ((c :: rest).drop kw.length).head? :=
          head?_drop_eq_of_take_eq (c :: out') (c :: rest) (j + 1) kw.length (by omega) htakeeq
        rw [← afterBoundOK_congr _ _ hheads]
        exact hab hb
      rw [tryKw_intro p.bound pw kw (c :: rest) hkne hbpw hswr habr] at h0
      exact absurd h0 (by simp)
    · -- kw.length = j + 1: the match ends exactly at the deletion point
      have hswr : startsWithCI kw (c :: rest) = true := by
        rw [← startsWithCI_congr_take kw (j + 1) (c :: out') (c :: rest) (by omega) htakeeq]
        exact hsw
      rcases Bool.eq_false_or_eq_true p.bound with hbt | hbf
      · -- bound pattern: the original failure forces a word character
        -- right after the match, contradicting the boundary of the
        -- trigger that fired at the deletion point
        have hclose : afterBoundOK ((c :: rest).drop kw.length) = false := by
          have h0' : tryKw true false kw (c :: rest) = none := by
            rw [← hbt, ← hbpw hbt]
            exact h0
          exact tryKw_none_bound_elim kw (c :: rest) hkne h0' hswr
        obtain ⟨kw2, hkw2mem, hkw2⟩ := List.exists_of_findSome?_eq_some htrigj
        obtain ⟨-, -, hbpw2, -, -⟩ := tryKw_some_elim p.bound _ kw2 (rest.drop j) k hkw2
        have hpwA : lastWordStatus (isWordChar c) (rest.take j) = false := hbpw2 hbt
        -- but the last character of `rest.take j` matches the last
        -- keyword character case-insensitively, hence is a word character
        obtain ⟨u, v, huv, hmap⟩ := (startsWithCI_iff kw (c :: rest)).mp hswr
        have hulen : kw.length = u.length := by
          have := congrArg List.length hmap
          simpa using this
        have hul2 : u.length = j + 1 := by omega
        have hu : u = (c :: rest).take (j + 1) := by
          rw [← hul2, huv]
          exact (List.take_left u v).symm
        have hju : j ≤ rest.length := by
          have h1 : j ≤ out'.length := hjle
          have := congrArg List.length htake
          simp only [List.length_take] at this
          omega
        obtain ⟨x, xs, hxxs⟩ : ∃ x xs, rest.take j = x :: xs := by
          cases hcc : rest.take j with
          | nil => rw [hcc] at htakelen; simp at htakelen; omega
          | cons x xs => exact ⟨x, xs, rfl⟩
        have hulast : u.getLast? = (rest.take j).getLast? := by
          rw [hu, List.take_succ_cons, hxxs, List.getLast?_cons_cons]

        have hmaplast : kl.toLower = ((rest.take j).getLast?.map Char.toLower) := by
          have h1 := congrArg List.getLast? hmap
          rw [getLast?_map_toLower, getLast?_map_toLower, hkl, hulast] at h1
          simpa using h1
        obtain ⟨ul, hul⟩ : ∃ ul, (rest.take j).getLast? = some ul := by
          rw [hxxs]
          cases hgl : (x :: xs).getLast? with
          | none => exact absurd hgl (by simp)
          | some z => exact ⟨z, rfl⟩
        rw [hul, Option.map_some'] at hmaplast
        have hulw : isWordChar ul = true := by
          rw [← isWordChar_congr_toLower kl ul (by simpa using hmaplast)]
          exact hklw
        have : lastWordStatus (isWordChar c) (rest.take j) = true := by
          unfold lastWordStatus
          rw [hul]
          exact hulw
        rw [this] at hpwA
        exact absurd hpwA (by simp)
      · -- unbound pattern: the match carries over verbatim
        rw [tryKw_intro p.bound pw kw (c :: rest) hkne hbpw hswr
          (by intro hb; rw [hb] at hbf; exact absurd hbf (by simp))] at h0
        exact absurd h0 (by simp)
    · -- kw.length > j + 1: the keyword would have to contain the period
      -- at the deletion point
      have hdropped : startsWithCI (kw.drop (j + 1)) (out'.drop j) = true := by
        have h1 := startsWithCI_drop kw (c :: out') (j + 1) hsw
        simpa using h1
      have hkdne : kw.drop (j + 1) ≠ [] := by
        intro hnil
        have := congrArg List.length hnil
        simp only [List.length_drop, List.length_nil] at this
        omega
      rcases hdot with hnil | ⟨t, ht⟩
      · rw [hnil] at hdropped
        match hkd : kw.drop (j + 1), hkdne with
        | a :: kws, _ =>
          rw [hkd] at hdropped
          simp [startsWithCI] at hdropped
      · rw [ht] at hdropped
        rw [startsWithCI_dot_false (kw.drop (j + 1)) t
          (fun ch hch => hdotfree ch (List.drop_subset (j + 1) kw hch)) hkdne] at hdropped
        exact absurd hdropped (by simp)

/-- After one `re.sub` pass for a well-formed noise pattern, the
pattern no longer matches anywhere in the output. -/
theorem subNoiseAux_self_clean (p : NoisePat) (hp : patOK p = true) :
    ∀ fuel pw (s : PyStr), s.length ≤ fuel →
      hasTrig p pw (subNoiseAux p fuel pw s) = false := by
  intro fuel
  induction fuel with
  | zero =>
    intro pw s hf
    cases s with
    | nil => rfl
    | cons c rest => simp at hf
  | succ f ih =>
    intro pw s hf
    cases s with
    | nil => rfl
    | cons c rest =>
      simp only [subNoiseAux]
      have hrest : rest.length ≤ f := by
        simp only [List.length_cons] at hf
        omega
      cases htrig : tryTrigger p pw (c :: rest) with
      | none =>
        simp only [hasTrig, Bool.or_eq_false_iff]
        constructor
        · rw [no_new_trigger p hp pw c rest (subNoiseAux p f (isWordChar c) rest) htrig
            (subNoiseAux_A2 p hp f (isWordChar c) rest hrest)]
          rfl
        · exact ih (isWordChar c) rest hrest
      | some k =>
        simp only []
        have hk : 1 ≤ k := tryTrigger_pos p pw (c :: rest) k htrig
        have hlen : (((c :: rest).drop k).dropWhile (fun x => x != '.')).length ≤ f := by
          have h1 := length_dropWhile_le (fun x => x != '.') ((c :: rest).drop k)
          have h2 : ((c :: rest).drop k).length = (c :: rest).length - k := by
            simp [List.length_drop]
          simp only [List.length_cons] at h2 hf
          omega
        have hdout : dotOrNil (subNoiseAux p f
            (lastWordStatus true (((c :: rest).drop k).takeWhile (fun x => x != '.')))
            (((c :: rest).drop k).dropWhile (fun x => x != '.'))) :=
          subNoiseAux_dotOrNil p hp f _ _ (dropWhile_dotOrNil _) hlen
        rw [hasTrig_dot_irrel p hp _ hdout pw
          (lastWordStatus true (((c :: rest).drop k).takeWhile (fun x => x != '.')))]
        exact ih _ _ hlen

/-! ### Span-deletion structure and preservation across passes (C6) -/

theorem SpanRem_del_append (s out : PyStr) (h : SpanRem s out) (hdot : dotOrNil out) :
    ∀ span, SpanRem (span ++ s) out := by
  intro span
  induction span with
  | nil => exact h
  | cons d ds ih => exact SpanRem.del d (ds ++ s) out ih hdot

theorem SpanRem_subNoiseAux (p : NoisePat) (hp : patOK p = true) :
    ∀ fuel pw (s : PyStr), s.length ≤ fuel → SpanRem s (subNoiseAux p fuel pw s) := by
  intro fuel
  induction fuel with
  | zero =>
    intro pw s hf
    cases s with
    | nil => exact SpanRem.nil
    | cons c rest => simp at hf
  | succ f ih =>
    intro pw s hf
    cases s with
    | nil => exact SpanRem.nil
    | cons c rest =>
      simp only [subNoiseAux]
      have hrest : rest.length ≤ f := by
        simp only [List.length_cons] at hf
        omega
      cases htrig : tryTrigger p pw (c :: rest) with
      | none =>
        simp only []
        exact SpanRem.keep c rest _ (ih (isWordChar c) rest hrest)
      | some k =>
        simp only []
        have hk : 1 ≤ k := tryTrigger_pos p pw (c :: rest) k htrig
        have hlen : (((c :: rest).drop k).dropWhile (fun x => x != '.')).length ≤ f := by
          have h1 := length_dropWhile_le (fun x => x != '.') ((c :: rest).drop k)
          have h2 : ((c :: rest).drop k).length = (c :: rest).length - k := by
            simp [List.length_drop]
          simp only [List.length_cons] at h2 hf
          omega
        have hrem : SpanRem (((c :: rest).drop k).dropWhile (fun x => x != '.'))
            (subNoiseAux p f
              (lastWordStatus true (((c :: rest).drop k).takeWhile (fun x => x != '.')))
              (((c :: rest).drop k).dropWhile (fun x => x != '.'))) :=
          ih _ _ hlen
        have hdout : dotOrNil (subNoiseAux p f
            (lastWordStatus true (((c :: rest).drop k).takeWhile (fun x => x != '.')))
            (((c :: rest).drop k).dropWhile (fun x => x != '.'))) :=
          subNoiseAux_dotOrNil p hp f _ _ (dropWhile_dotOrNil _) hlen
        have hdecomp : c :: rest =
            ((c :: rest).take k ++ ((c :: rest).drop k).takeWhile (fun x => x != '.')) ++
              ((c :: rest).drop k).dropWhile (fun x => x != '.') := by
          rw [List.append_assoc, List.takeWhile_append_dropWhile, List.take_append_drop]
        have hfin := SpanRem_del_append _ _ hrem hdout
          ((c :: rest).take k ++ ((c :: rest).drop k).takeWhile (fun x => x != '.'))
        rw [← hdecomp] at hfin
        exact hfin

theorem SpanRem_startsWith (s out : PyStr) (h : SpanRem s out) :
    ∀ kw : PyStr, (∀ ch ∈ kw, (ch.toLower == '.') = false) →
      startsWithCI kw out = true → startsWithCI kw s = true := by
  induction h with
  | nil => intro kw _ hsw; exact hsw
  | keep c s1 out1 h1 ih =>
    intro kw hdf hsw
    cases kw with
    | nil => rfl
    | cons k ks =>
      simp only [startsWithCI, Bool.and_eq_true] at hsw ⊢
      exact ⟨hsw.1, ih ks (fun ch hch => hdf ch (List.mem_cons_of_mem k hch)) hsw.2⟩
  | del d s1 out1 h1 hdot ih =>
    intro kw hdf hsw
    cases kw with
    | nil => rfl
    | cons k ks =>
      exfalso
      rcases hdot with rfl | ⟨t, rfl⟩
      · simp [startsWithCI] at hsw
      · rw [startsWithCI_dot_false (k :: ks) t hdf (by simp)] at hsw
        exact absurd hsw (by simp)

theorem containsCI_nil (kw : PyStr) : containsCI kw [] = startsWithCI kw [] := by
  simp [containsCI, List.tails]

theorem containsCI_cons (kw : PyStr) (c : Char) (rest : PyStr) :
    containsCI kw (c :: rest) = (startsWithCI kw (c :: rest) || containsCI kw rest) := by
  simp [containsCI, List.tails]

theorem containsCI_cons_of (kw : PyStr) (c : Char) (rest : PyStr)
    (h : containsCI kw rest = true) : containsCI kw (c :: rest) = true := by
  rw [containsCI_cons]
  simp [h]

theorem SpanRem_containsCI (s out : PyStr) (h : SpanRem s out) (kw : PyStr)
    (hdf : ∀ ch ∈ kw, (ch.toLower == '.') = false)
    (hc : containsCI kw out = true) : containsCI kw s = true := by
  induction h with
  | nil => exact hc
  | keep c s1 out1 h1 ih =>
    rw [containsCI_cons] at hc ⊢
    rcases Bool.or_eq_true_iff.mp hc with hl | hr
    · have := SpanRem_startsWith (c :: s1) (c :: out1) (SpanRem.keep c s1 out1 h1) kw hdf hl
      simp [this]
    · simp [ih hr]
  | del d s1 out1 h1 hdot ih =>
    exact containsCI_cons_of kw d s1 (ih hc)

theorem tryKw_unbound_isSome (pw : Bool) (kw s : PyStr) (hne : kw ≠ []) :
    (tryKw false pw kw s).isSome = startsWithCI kw s := by
  match kw, hne with
  | a :: kw', _ =>
    simp only [tryKw]
    rw [if_neg (by simp)]
    cases hsw : startsWithCI (a :: kw') s with
    | true => rw [if_pos rfl, if_neg (by simp)]; rfl
    | false => rw [if_neg (by simp)]; rfl

theorem hasTrig_unbound_eq_containsCI (kw : PyStr) (hne : kw ≠ []) :
    ∀ (s : PyStr) (pw : Bool), hasTrig ⟨[kw], false⟩ pw s = containsCI kw s := by
  intro s
  induction s with
  | nil =>
    intro pw
    rw [containsCI_nil]
    match kw, hne with
    | a :: kw', _ => rfl
  | cons c rest ih =>
    intro pw
    rw [containsCI_cons]
    simp only [hasTrig]
    have htt : (tryTrigger ⟨[kw], false⟩ pw (c :: rest)).isSome =
        startsWithCI kw (c :: rest) := by
      unfold tryTrigger
      simp only [List.findSome?]
      cases hkk : tryKw false pw kw (c :: rest) with
      | some v =>
        have := tryKw_unbound_isSome pw kw (c :: rest) hne
        rw [hkk] at this
        simp only [List.findSome?_nil]
        simpa using this.symm
      | none =>
        have := tryKw_unbound_isSome pw kw (c :: rest) hne
        rw [hkk] at this
        simpa using this.symm
    rw [htt, ih (isWordChar c)]

/-! ### Whitespace collapse and strip shape lemmas (C6) -/

theorem dropWhile_idem (p : Char → Bool) (l : PyStr) :
    (l.dropWhile p).dropWhile p = l.dropWhile p := by
  induction l with
  | nil => rfl
  | cons c rest ih =>
    simp only [List.dropWhile]
    cases hc : p c with
    | true => simpa using ih
    | false => simp [List.dropWhile, hc]

theorem dropWhile_append_last (p : Char → Bool) (a : Char) (ha : p a = false)
    (x : PyStr) : (x ++ [a]).dropWhile p = x.dropWhile p ++ [a] := by
  induction x with
  | nil => simp [List.dropWhile, ha]
  | cons c rest ih =>
    simp only [List.cons_append, List.dropWhile]
    cases hc : p c with
    | true => simpa using ih
    | false => simp

theorem head?_dropWhile_false (p : Char → Bool) (l : PyStr) (c : Char)
    (hc : (l.dropWhile p).head? = some c) : p c = false := by
  have h := List.head?_dropWhile_not p l
  rw [hc] at h
  exact h

theorem dropWhile_eq_self_of_head (p : Char → Bool) (l : PyStr)
    (h : ∀ c, l.head? = some c → p c = false) : l.dropWhile p = l := by
  cases l with
  | nil => rfl
  | cons c rest =>
    apply List.dropWhile_cons_of_neg
    simp [h c rfl]

theorem dropWhile_getLast?_of_ne_nil (p : Char → Bool) (l : PyStr)
    (h : l.dropWhile p ≠ []) : (l.dropWhile p).getLast? = l.getLast? := by
  have hdec : l = l.takeWhile p ++ l.dropWhile p :=
    (List.takeWhile_append_dropWhile p l).symm
  nth_rewrite 2 [hdec]
  rw [List.getLast?_append]
  cases hL : (l.dropWhile p).getLast? with
  | none =>
    rw [List.getLast?_eq_none_iff] at hL
    exact absurd hL h
  | some z => rfl

theorem pyStrip_head_not_space (s : PyStr) (c : Char)
    (hc : (pyStrip s).head? = some c) : pyIsSpace c = false := by
  unfold pyStrip at hc
  rw [List.head?_reverse] at hc
  by_cases hB : (s.dropWhile pyIsSpace).reverse.dropWhile pyIsSpace = []
  · rw [hB] at hc
    simp at hc
  · rw [dropWhile_getLast?_of_ne_nil _ _ hB, List.getLast?_reverse] at hc
    exact head?_dropWhile_false pyIsSpace s c hc

theorem pyStrip_getLast_not_space (s : PyStr) (c : Char)
    (hc : (pyStrip s).getLast? = some c) : pyIsSpace c = false := by
  unfold pyStrip at hc
  rw [List.getLast?_reverse] at hc
  exact head?_dropWhile_false _ _ c hc

theorem pyStrip_of_clean (l : PyStr)
    (hh : ∀ c, l.head? = some c → pyIsSpace c = false)
    (hl : ∀ c, l.getLast? = some c → pyIsSpace c = false) : pyStrip l = l := by
  unfold pyStrip
  rw [dropWhile_eq_self_of_head _ _ hh]
  rw [dropWhile_eq_self_of_head _ _ (by
    intro c hc
    rw [List.head?_reverse] at hc
    exact hl c hc)]
  simp

theorem pyStrip_idem (s : PyStr) : pyStrip (pyStrip s) = pyStrip s :=
  pyStrip_of_clean _ (pyStrip_head_not_space s) (pyStrip_getLast_not_space s)

theorem startsWithCI_append_left (kw : PyStr) :
    ∀ (x v : PyStr), startsWithCI kw x = true → startsWithCI kw (x ++ v) = true := by
  induction kw with
  | nil => intro x v _; rfl
  | cons k ks ih =>
    intro x v h
    cases x with
    | nil => simp [startsWithCI] at h
    | cons c cs =>
      simp only [startsWithCI, Bool.and_eq_true, List.cons_append] at h ⊢
      exact ⟨h.1, ih cs v h.2⟩

theorem containsCI_kw_nil (x : PyStr) : containsCI [] x = true := by
  cases x with
  | nil => rfl
  | cons c rest => rw [containsCI_cons]; rfl

theorem containsCI_append_of_left (kw : PyStr) :
    ∀ (x v : PyStr), containsCI kw x = true → containsCI kw (x ++ v) = true := by
  intro x
  induction x with
  | nil =>
    intro v h
    rw [containsCI_nil] at h
    cases kw with
    | nil => simpa using containsCI_kw_nil v
    | cons k ks => simp [startsWithCI] at h
  | cons c cs ih =>
    intro v h
    rw [containsCI_cons] at h
    rw [List.cons_append, containsCI_cons]
    rcases Bool.or_eq_true_iff.mp h with hl | hr
    · have hsw := startsWithCI_append_left kw (c :: cs) v hl
      rw [List.cons_append] at hsw
      rw [hsw]
      rfl
    · rw [ih v hr]
      simp

theorem containsCI_append_of_right (kw : PyStr) (v : PyStr)
    (h : containsCI kw v = true) : ∀ u : PyStr, containsCI kw (u ++ v) = true := by
  intro u
  induction u with
  | nil => simpa using h
  | cons c cs ih => exact containsCI_cons_of kw c (cs ++ v) ih

theorem containsCI_pyStrip (kw t : PyStr)
    (h : containsCI kw (pyStrip t) = true) : containsCI kw t = true := by
  have hA : t.dropWhile pyIsSpace =
      pyStrip t ++ ((t.dropWhile pyIsSpace).reverse.takeWhile pyIsSpace).reverse := by
    unfold pyStrip
    rw [show ((t.dropWhile pyIsSpace).reverse.dropWhile pyIsSpace).reverse ++
        ((t.dropWhile pyIsSpace).reverse.takeWhile pyIsSpace).reverse =
        ((t.dropWhile pyIsSpace).reverse.takeWhile pyIsSpace ++
          (t.dropWhile pyIsSpace).reverse.dropWhile pyIsSpace).reverse by
      rw [List.reverse_append]]
    rw [List.takeWhile_append_dropWhile, List.reverse_reverse]
  have h1 : containsCI kw (t.dropWhile pyIsSpace) = true := by
    rw [hA]
    exact containsCI_append_of_left kw _ _ h
  have h2 : t = t.takeWhile pyIsSpace ++ t.dropWhile pyIsSpace :=
    (List.takeWhile_append_dropWhile pyIsSpace t).symm
  rw [h2]
  exact containsCI_append_of_right kw _ h1 _

/-- The whitespace-adjacency relation of collapsed text. -/
def noWS2 (a b : Char) : Prop := ¬(pyIsSpace a = true ∧ pyIsSpace b = true)

theorem collapseWS_shape : ∀ s : PyStr,
    collapsedOK (collapseWS s) ∧ collapsedOK (collapseWSRun s) ∧
      (∀ c, (collapseWSRun s).head? = some c → pyIsSpace c = false) := by
  intro s
  induction s with
  | nil =>
    have h0 : collapsedOK ([] : PyStr) :=
      ⟨by intro x hx _; simp at hx, List.chain'_nil⟩
    have e1 : collapseWS ([] : PyStr) = [] := rfl
    have e2 : collapseWSRun ([] : PyStr) = [] := rfl
    refine ⟨by rw [e1]; exact h0, by rw [e2]; exact h0, ?_⟩
    intro c hc
    rw [e2] at hc
    simp at hc
  | cons c rest ih =>
    obtain ⟨hWS, hRun, hHd⟩ := ih
    by_cases hsp : pyIsSpace c = true
    · have e1 : collapseWS (c :: rest) = ' ' :: collapseWSRun rest := by
        simp [collapseWS, hsp]
      have e2 : collapseWSRun (c :: rest) = collapseWSRun rest := by
        simp [collapseWSRun, hsp]
      refine ⟨?_, by rw [e2]; exact hRun, by rw [e2]; exact hHd⟩
      rw [e1]
      constructor
      · intro x hx hxs
        rcases List.mem_cons.mp hx with rfl | hmem
        · rfl
        · exact hRun.1 x hmem hxs
      · rw [List.chain'_cons']
        refine ⟨?_, hRun.2⟩
        intro b hb
        have := hHd b hb
        intro hcon
        rw [this] at hcon
        exact absurd hcon.2 (by simp)
    · have hspf : pyIsSpace c = false := by simpa using hsp
      have e1 : collapseWS (c :: rest) = c :: collapseWS rest := by
        simp [collapseWS, hspf]
      have e2 : collapseWSRun (c :: rest) = c :: collapseWS rest := by
        simp [collapseWSRun, hspf]
      have hcons : collapsedOK (c :: collapseWS rest) := by
        constructor
        · intro x hx hxs
          rcases List.mem_cons.mp hx with rfl | hmem
          · rw [hxs] at hspf; exact absurd hspf (by simp)
          · exact hWS.1 x hmem hxs
        · rw [List.chain'_cons']
          refine ⟨?_, hWS.2⟩
          intro b _
          intro hcon
          rw [hspf] at hcon
          exact absurd hcon.1 (by simp)
      refine ⟨by rw [e1]; exact hcons, by rw [e2]; exact hcons, ?_⟩
      intro x hx
      rw [e2] at hx
      simp only [List.head?_cons, Option.some.injEq] at hx
      rw [← hx]
      exact hspf

theorem collapseWS_of_collapsedOK : ∀ s : PyStr, collapsedOK s → collapseWS s = s := by
  intro s
  induction s with
  | nil => intro _; rfl
  | cons c rest ih =>
    intro hOK
    have htail : collapsedOK rest := by
      refine ⟨fun x hx => hOK.1 x (List.mem_cons_of_mem c hx), ?_⟩
      have := hOK.2
      rw [List.chain'_cons'] at this
      exact this.2
    by_cases hsp : pyIsSpace c = true
    · have hc : c = ' ' := hOK.1 c (by simp) hsp
      have hheadns : ∀ b, rest.head? = some b → pyIsSpace b = false := by
        intro b hb
        have h2 := hOK.2
        rw [List.chain'_cons'] at h2
        have := h2.1 b hb
        rcases Bool.eq_false_or_eq_true (pyIsSpace b) with hbt | hbf
        · exact absurd ⟨hsp, hbt⟩ this
        · exact hbf
      have e1 : collapseWS (c :: rest) = ' ' :: collapseWSRun rest := by
        simp [collapseWS, hsp]
      rw [e1, hc]
      congr 1
      cases rest with
      | nil => rfl
      | cons x xs =>
        have hx : pyIsSpace x = false := hheadns x rfl
        have : collapseWSRun (x :: xs) = x :: collapseWS xs := by
          simp [collapseWSRun, hx]
        rw [this]
        have : collapseWS (x :: xs) = x :: collapseWS xs := by
          simp [collapseWS, hx]
        rw [← this]
        exact ih htail
    · have hspf : pyIsSpace c = false := by simpa using hsp
      have e1 : collapseWS (c :: rest) = c :: collapseWS rest := by
        simp [collapseWS, hspf]
      rw [e1, ih htail]

theorem SpanRem_subset (s out : PyStr) (h : SpanRem s out) : ∀ x ∈ out, x ∈ s := by
  induction h with
  | nil => intro x hx; exact hx
  | keep c s1 out1 h1 ih =>
    intro x hx
    rcases List.mem_cons.mp hx with rfl | hmem
    · simp
    · exact List.mem_cons_of_mem c (ih x hmem)
  | del d s1 out1 h1 hdot ih =>
    intro x hx
    exact List.mem_cons_of_mem d (ih x hx)

theorem SpanRem_head (s out : PyStr) (h : SpanRem s out) :
    out.head? = s.head? ∨ dotOrNil out := by
  cases h with
  | nil => exact Or.inr (Or.inl rfl)
  | keep c s1 out1 h1 => exact Or.inl rfl
  | del d s1 out1 h1 hdot => exact Or.inr hdot

theorem SpanRem_collapsedOK (s out : PyStr) (h : SpanRem s out)
    (hOK : collapsedOK s) : collapsedOK out := by
  induction h with
  | nil => exact hOK
  | keep c s1 out1 h1 ih =>
    have htail : collapsedOK s1 := by
      refine ⟨fun x hx => hOK.1 x (List.mem_cons_of_mem c hx), ?_⟩
      have h2 := hOK.2
      rw [List.chain'_cons'] at h2
      exact h2.2
    have hout1 := ih htail
    constructor
    · intro x hx hxs
      rcases List.mem_cons.mp hx with rfl | hmem
      · exact hOK.1 x (by simp) hxs
      · exact hout1.1 x hmem hxs
    · rw [List.chain'_cons']
      refine ⟨?_, hout1.2⟩
      intro b hb
      rcases SpanRem_head s1 out1 h1 with hhd | hdot
      · rw [hhd] at hb
        have h2 := hOK.2
        rw [List.chain'_cons'] at h2
        exact h2.1 b hb
      · rcases hdot with rfl | ⟨t, rfl⟩
        · simp at hb
        · have hb' : b = '.' := by
            have := hb
            simp only [List.head?_cons] at this
            exact (by simpa using this : '.' = b).symm
          intro hcon
          rw [hb'] at hcon
          have hdotns : pyIsSpace '.' = false := by decide
          rw [hdotns] at hcon
          exact absurd hcon.2 (by simp)
  | del d s1 out1 h1 hdot ih =>
    apply ih
    refine ⟨fun x hx => hOK.1 x (List.mem_cons_of_mem d hx), ?_⟩
    have h2 := hOK.2
    rw [List.chain'_cons'] at h2
    exact h2.2

theorem collapsedOK_append_right (u v : PyStr) (h : collapsedOK (u ++ v)) :
    collapsedOK v := by
  constructor
  · intro x hx hxs
    exact h.1 x (List.mem_append_right u hx) hxs
  · have h2 := h.2
    rw [List.chain'_append] at h2
    exact h2.2.1

theorem collapsedOK_reverse (l : PyStr) (h : collapsedOK l) :
    collapsedOK l.reverse := by
  constructor
  · intro x hx hxs
    exact h.1 x (List.mem_reverse.mp hx) hxs
  · rw [List.chain'_reverse]
    apply List.Chain'.imp _ h.2
    intro a b hab hcon
    exact hab ⟨hcon.2, hcon.1⟩

theorem collapsedOK_dropWhile (p : Char → Bool) (l : PyStr) (h : collapsedOK l) :
    collapsedOK (l.dropWhile p) := by
  have hdec : l = l.takeWhile p ++ l.dropWhile p := (List.takeWhile_append_dropWhile p l).symm
  rw [hdec] at h
  exact collapsedOK_append_right _ _ h

theorem collapsedOK_pyStrip (l : PyStr) (h : collapsedOK l) :
    collapsedOK (pyStrip l) := by
  unfold pyStrip
  exact collapsedOK_reverse _ (collapsedOK_dropWhile _ _ (collapsedOK_reverse _
    (collapsedOK_dropWhile _ _ h)))

theorem subNoiseAux_noop (p : NoisePat) :
    ∀ fuel pw (s : PyStr), s.length ≤ fuel → hasTrig p pw s = false →
      subNoiseAux p fuel pw s = s := by
  intro fuel
  induction fuel with
  | zero =>
    intro pw s hf _
    cases s with
    | nil => rfl
    | cons c rest => simp at hf
  | succ f ih =>
    intro pw s hf hnt
    cases s with
    | nil => rfl
    | cons c rest =>
      simp only [hasTrig, Bool.or_eq_false_iff] at hnt
      simp only [subNoiseAux]
      cases htrig : tryTrigger p pw (c :: rest) with
      | some k =>
        rw [htrig] at hnt
        exact absurd hnt.1 (by simp)
      | none =>
        simp only []
        congr 1
        exact ih (isWordChar c) rest (by simp only [List.length_cons] at hf; omega) hnt.2

/-! ### Claim C6: the sanitizer -/

theorem subNoise_self_clean (p : NoisePat) (hp : patOK p = true) (t : PyStr) :
    hasTrig p false (subNoise p t) = false :=
  subNoiseAux_self_clean p hp t.length false t (Nat.le_refl _)

theorem SpanRem_subNoise (p : NoisePat) (hp : patOK p = true) (t : PyStr) :
    SpanRem t (subNoise p t) :=
  SpanRem_subNoiseAux p hp t.length false t (Nat.le_refl _)

theorem containsCI_false_subNoise (q : NoisePat) (hq : patOK q = true) (kw t : PyStr)
    (hdf : ∀ ch ∈ kw, (ch.toLower == '.') = false)
    (h : containsCI kw t = false) : containsCI kw (subNoise q t) = false := by
  rcases Bool.eq_false_or_eq_true (containsCI kw (subNoise q t)) with ht | hf
  · rw [SpanRem_containsCI t (subNoise q t) (SpanRem_subNoise q hq t) kw hdf ht] at h
    exact absurd h (by simp)
  · exact hf

theorem containsCI_false_pyStrip (kw t : PyStr)
    (h : containsCI kw t = false) : containsCI kw (pyStrip t) = false := by
  rcases Bool.eq_false_or_eq_true (containsCI kw (pyStrip t)) with ht | hf
  · rw [containsCI_pyStrip kw t ht] at h
    exact absurd h (by simp)
  · exact hf

theorem hasTrig_pat3_eq (pw : Bool) (t : PyStr) :
    hasTrig pat3 pw t = containsCI "JavaScript".data t :=
  hasTrig_unbound_eq_containsCI "JavaScript".data (by decide) t pw

theorem hasTrig_pat4_eq (pw : Bool) (t : PyStr) :
    hasTrig pat4 pw t = containsCI "Enable JavaScript".data t :=
  hasTrig_unbound_eq_containsCI "Enable JavaScript".data (by decide) t pw

theorem hasTrig_pat5_eq (pw : Bool) (t : PyStr) :
    hasTrig pat5 pw t = containsCI "This website uses cookies".data t :=
  hasTrig_unbound_eq_containsCI "This website uses cookies".data (by decide) t pw

theorem cleanNoise_eq (t : PyStr) :
    cleanNoise t =
      subNoise pat5 (subNoise pat4 (subNoise pat3 (subNoise pat2 (subNoise pat1 t)))) :=
  rfl

/-- Counterexample to C6 as stated: on `"AdJavaScript x."` the
`JavaScript` pass deletes `"JavaScript x"` and thereby glues `"Ad"`
against the period, so the output `"Ad."` matches the
`\b(Advertisement|Ad)\b.*?(?=\.|$)` noise pattern (the passes for that
pattern ran earlier and are not re-applied), and a second
sanitization removes it: the sanitizer output is not noise-free and the
sanitizer is not idempotent. -/
theorem c6_counterexample :
    validate_and_clean_content (.pstr "AdJavaScript x.".data) = "Ad.".data ∧
    hasNoise "Ad.".data = true ∧
    validate_and_clean_content (.pstr "Ad.".data) = ".".data ∧
    (".".data : PyStr) ≠ "Ad.".data :=
  ⟨rfl, rfl, rfl, by decide⟩

/-- C6 as amended: the sanitizer output never matches the three
later-applied noise patterns (`JavaScript`, `Enable JavaScript`,
`This website uses cookies`); matches of the two earlier patterns can
be re-created by later deletions, and the sanitizer is idempotent on
every input whose sanitized form matches no noise pattern. -/
theorem c6_sanitizer_amended :
    (∀ s : PyStr,
      hasTrig pat3 false (validate_and_clean_content (.pstr s)) = false ∧
      hasTrig pat4 false (validate_and_clean_content (.pstr s)) = false ∧
      hasTrig pat5 false (validate_and_clean_content (.pstr s)) = false) ∧
    (∀ s : PyStr, hasNoise (validate_and_clean_content (.pstr s)) = false →
      validate_and_clean_content (.pstr (validate_and_clean_content (.pstr s))) =
        validate_and_clean_content (.pstr s)) := by
  have hp1 : patOK pat1 = true := by decide
  have hp2 : patOK pat2 = true := by decide
  have hp3 : patOK pat3 = true := by decide
  have hp4 : patOK pat4 = true := by decide
  have hp5 : patOK pat5 = true := by decide
  have hdf3 : ∀ ch ∈ ("JavaScript".data : PyStr), (ch.toLower == '.') = false := by decide
  have hdf4 : ∀ ch ∈ ("Enable JavaScript".data : PyStr), (ch.toLower == '.') = false := by
    decide
  have hdf5 : ∀ ch ∈ ("This website uses cookies".data : PyStr),
      (ch.toLower == '.') = false := by decide
  constructor
  · intro s
    by_cases hs : s = []
    · rw [hs]
      exact ⟨rfl, rfl, rfl⟩
    · have hout : validate_and_clean_content (.pstr s) = sanitizeStr s := by
        simp [validate_and_clean_content, hs]
      rw [hout]
      unfold sanitizeStr
      rw [cleanNoise_eq]
      set t1 := subNoise pat1 (collapseWS (pyStrip s)) with ht1
      set t2 := subNoise pat2 t1 with ht2
      set t3 := subNoise pat3 t2 with ht3
      set t4 := subNoise pat4 t3 with ht4
      set t5 := subNoise pat5 t4 with ht5
      refine ⟨?_, ?_, ?_⟩
      · rw [hasTrig_pat3_eq]
        apply containsCI_false_pyStrip
        rw [ht5]
        apply containsCI_false_subNoise pat5 hp5 _ _ hdf3
        rw [ht4]
        apply containsCI_false_subNoise pat4 hp4 _ _ hdf3
        rw [← hasTrig_pat3_eq false]
        exact subNoise_self_clean pat3 hp3 t2
      · rw [hasTrig_pat4_eq]
        apply containsCI_false_pyStrip
        rw [ht5]
        apply containsCI_false_subNoise pat5 hp5 _ _ hdf4
        rw [← hasTrig_pat4_eq false]
        exact subNoise_self_clean pat4 hp4 t3
      · rw [hasTrig_pat5_eq]
        apply containsCI_false_pyStrip
        rw [← hasTrig_pat5_eq false]
        exact subNoise_self_clean pat5 hp5 t4
  · intro s hnoise
    by_cases hs : s = []
    · rw [hs]
      rfl
    · have hout : validate_and_clean_content (.pstr s) = sanitizeStr s := by
        simp [validate_and_clean_content, hs]
      rw [hout] at hnoise ⊢
      by_cases ho : sanitizeStr s = []
      · rw [ho]
        rfl
      · have hlhs : validate_and_clean_content (.pstr (sanitizeStr s)) =
            sanitizeStr (sanitizeStr s) := by
          simp [validate_and_clean_content, ho]
        rw [hlhs]
        have hstrip : pyStrip (sanitizeStr s) = sanitizeStr s := by
          unfold sanitizeStr
          rw [pyStrip_idem]
        have hcoll : collapsedOK (sanitizeStr s) := by
          unfold sanitizeStr
          apply collapsedOK_pyStrip
          rw [cleanNoise_eq]
          apply SpanRem_collapsedOK _ _ (SpanRem_subNoise pat5 hp5 _)
          apply SpanRem_collapsedOK _ _ (SpanRem_subNoise pat4 hp4 _)
          apply SpanRem_collapsedOK _ _ (SpanRem_subNoise pat3 hp3 _)
          apply SpanRem_collapsedOK _ _ (SpanRem_subNoise pat2 hp2 _)
          apply SpanRem_collapsedOK _ _ (SpanRem_subNoise pat1 hp1 _)
          exact (collapseWS_shape (pyStrip s)).1

        have hexp : hasTrig pat1 false (sanitizeStr s) = false ∧
            hasTrig pat2 false (sanitizeStr s) = false ∧
            hasTrig pat3 false (sanitizeStr s) = false ∧
            hasTrig pat4 false (sanitizeStr s) = false ∧
            hasTrig pat5 false (sanitizeStr s) = false := by
          unfold hasNoise noisePats at hnoise
          simp only [List.any_cons, List.any_nil, Bool.or_eq_false_iff] at hnoise
          exact ⟨hnoise.1, hnoise.2.1, hnoise.2.2.1, hnoise.2.2.2.1, hnoise.2.2.2.2.1⟩
        have hcn : cleanNoise (sanitizeStr s) = sanitizeStr s := by
          rw [cleanNoise_eq]
          have e1 : subNoise pat1 (sanitizeStr s) = sanitizeStr s :=
            subNoiseAux_noop pat1 _ false _ (Nat.le_refl _) hexp.1
          rw [e1]
          have e2 : subNoise pat2 (sanitizeStr s) = sanitizeStr s :=
            subNoiseAux_noop pat2 _ false _ (Nat.le_refl _) hexp.2.1
          rw [e2]
          have e3 : subNoise pat3 (sanitizeStr s) = sanitizeStr s :=
            subNoiseAux_noop pat3 _ false _ (Nat.le_refl _) hexp.2.2.1
          rw [e3]
          have e4 : subNoise pat4 (sanitizeStr s) = sanitizeStr s :=
            subNoiseAux_noop pat4 _ false _ (Nat.le_refl _) hexp.2.2.2.1
          rw [e4]
          exact subNoiseAux_noop pat5 _ false _ (Nat.le_refl _) hexp.2.2.2.2
        show pyStrip (cleanNoise (collapseWS (pyStrip (sanitizeStr s)))) = sanitizeStr s
        rw [hstrip, collapseWS_of_collapsedOK _ hcoll, hcn, hstrip]

/-- Witness for the amended C6 at a concrete noise-free input. -/
theorem c6_witness :
    hasNoise (validate_and_clean_content (.pstr "hello world.".data)) = false ∧
    validate_and_clean_content
        (.pstr (validate_and_clean_content (.pstr "hello world.".data))) =
      validate_and_clean_content (.pstr "hello world.".data) :=
  ⟨by decide, c6_sanitizer_amended.2 "hello world.".data (by decide)⟩

end Tavily
